import Mathlib

/- Verification of the preserialize library: a shallow embedding of
   src/preserialize/__init__.py and src/preserialize/json.py.

   Object graphs are modelled as finite heaps mapping addresses to objects;
   an address plays the role of a Python object identity (id(obj)).
   Primitive values (int, float, str, bool, None) are embedded by value:
   the library never tracks the identity of a primitive, because every
   primitive type of the JSON preserializer is registered with an absent
   Deconstructor and such values are emitted before the identity cache is
   consulted.  Floats are opaque atoms (the library never computes with
   them).  Character classes of the regular expressions are modelled over
   their ASCII behaviour. -/

namespace Preserialize

/-- Error taxonomy.  The source raises PreserializeError for an invalid
type name and for an invalid key name, UnregisteredTypeError for unknown
types, and JsonReferenceError for an unsupported reference.  outOfFuel is
a model artifact for the fuel-indexed traversal (the chosen fuel is large
enough for every run the theorems mention); internal marks states that
are unreachable from the modelled configurations (they raise TypeError,
KeyError or AttributeError in Python rather than a library error). -/
inductive PErr where
  | unregisteredType
  | invalidTypeName
  | invalidKeyName
  | unsupportedReference
  | outOfFuel
  | internal
deriving DecidableEq, Repr

abbrev Addr := Nat

/-- Primitive scalar values. -/
inductive PVal where
  | int (n : Int)
  | float (code : Nat)
  | str (s : String)
  | bool (b : Bool)
  | noneV
deriving DecidableEq, Repr

/-- A value is a primitive or a reference to a heap object. -/
inductive V where
  | prim (p : PVal)
  | obj (a : Addr)
deriving DecidableEq, Repr

/-- Heap objects: lists, tuples, sets, dicts and class instances. -/
inductive Obj where
  | list (items : List V)
  | tuple (items : List V)
  | setO (items : List V)
  | dict (items : List (V × V))
  | inst (cls : String) (fields : List (String × V))
deriving DecidableEq, Repr

/-- Runtime types, the keys of the registry. -/
inductive Ty where
  | int
  | float
  | str
  | bool
  | noneTy
  | list
  | tuple
  | setT
  | dict
  | cls (name : String)
deriving DecidableEq, Repr

def primTy : PVal → Ty
  | .int _ => .int
  | .float _ => .float
  | .str _ => .str
  | .bool _ => .bool
  | .noneV => .noneTy

def objTy : Obj → Ty
  | .list _ => .list
  | .tuple _ => .tuple
  | .setO _ => .setT
  | .dict _ => .dict
  | .inst c _ => .cls c

/-- First-match association lookup, the semantics of a Python dict whose
updates are modelled by consing the newest binding in front. -/
def alook {κ β : Type} [DecidableEq κ] (k : κ) : List (κ × β) → Option β
  | [] => Option.none
  | (k0, v) :: rest => if k0 = k then Option.some v else alook k rest

/-- In-place overwrite or append, the semantics of a Python dict update
that preserves insertion order. -/
def ainsert {κ β : Type} [DecidableEq κ] (k : κ) (v : β) : List (κ × β) → List (κ × β)
  | [] => [(k, v)]
  | (k0, v0) :: rest => if k0 = k then (k0, v) :: rest else (k0, v0) :: ainsert k v rest

abbrev Heap := List (Addr × Obj)

def heapGet (h : Heap) (a : Addr) : Option Obj := alook a h

/- ---------------------------------------------------------------------
   String machinery: identifiers, type names, replace, int casting.
   --------------------------------------------------------------------- -/

/-- First character of a Python identifier (regex class of a word char
that is not a digit), over ASCII. -/
def wordStart (c : Char) : Bool := c.isAlpha || c = '_'

/-- Any further character of a Python identifier (regex word char). -/
def wordChar (c : Char) : Bool := c.isAlphanum || c = '_'

def isIdentifierL : List Char → Bool
  | [] => false
  | c :: rest => wordStart c && rest.all wordChar

/-- Embeds is_identifier: full match of the IDENTIFIER_PATTERN regex. -/
def isIdentifier (s : String) : Bool := isIdentifierL s.data

/-- Deterministic scan of the regex (ident)? (dot ident)*.
State 0: at the very beginning (empty match allowed).
State 1: inside an identifier segment (may stop here).
State 2: just after a dot (an identifier start is required). -/
def tnBody : Nat → List Char → Bool
  | 0, [] => true
  | 1, [] => true
  | _ + 2, [] => false
  | 0, c :: rest =>
    if wordStart c then tnBody 1 rest
    else if c = '.' then tnBody 2 rest
    else false
  | 1, c :: rest =>
    if wordChar c then tnBody 1 rest
    else if c = '.' then tnBody 2 rest
    else false
  | _ + 2, c :: rest => if wordStart c then tnBody 1 rest else false

def isTypeNameL (escape : Char) : List Char → Bool
  | [] => tnBody 0 []
  | c :: rest =>
    if c = escape then (tnBody 0 rest || tnBody 0 (c :: rest)) else tnBody 0 (c :: rest)

/-- Embeds is_type_name: full match of TYPE_NAME_PATTERN, an optional
leading escape character followed by dotted identifier segments. -/
def isTypeName (escape : Char) (s : String) : Bool := isTypeNameL escape s.data

/-- Python str.replace with a single-character pattern (left to right,
non overlapping). -/
def replace1 (a : Char) (rep : List Char) : List Char → List Char
  | [] => []
  | c :: rest => if c = a then rep ++ replace1 a rep rest else c :: replace1 a rep rest

/-- Python str.replace with a two-character pattern (left to right,
non overlapping). -/
def replace2 (a b : Char) (rep : List Char) : List Char → List Char
  | [] => []
  | [c] => [c]
  | c :: c2 :: rest =>
    if c = a ∧ c2 = b then rep ++ replace2 a b rep rest
    else c :: replace2 a b rep (c2 :: rest)

def digitsToNat : List Char → Option Nat
  | [] => Option.none
  | l =>
    if l.all Char.isDigit then
      Option.some (l.foldl (fun n c => 10 * n + (c.toNat - 48)) 0)
    else Option.none

/-- Value of int(s) on a stripped string: an optional sign followed by
decimal digits.  Digit group underscores are not modelled; no reachable
input contains them. -/
def parseInt : List Char → Option Int
  | '-' :: rest => (digitsToNat rest).map (fun n => -(n : Int))
  | '+' :: rest => (digitsToNat rest).map (fun n => (n : Int))
  | l => (digitsToNat l).map (fun n => (n : Int))

/-- Keys of a path: wire tree positions are integers (sequence indices)
or strings (mapping keys). -/
inductive PKey where
  | num (n : Int)
  | str (s : String)
deriving DecidableEq, Repr

abbrev Path := List PKey

/-- Whitespace stripping as the int constructor performs it, over the
character list. -/
def trimWS (l : List Char) : List Char :=
  ((l.dropWhile Char.isWhitespace).reverse.dropWhile Char.isWhitespace).reverse

/-- Embeds cast_int: cast to an int if possible, otherwise keep the
string. -/
def castInt (s : String) : PKey :=
  match parseInt (trimWS s.data) with
  | Option.some n => .num n
  | Option.none => .str s

/- ---------------------------------------------------------------------
   The key encoder (IdentifierEscapeEncoder).
   --------------------------------------------------------------------- -/

/-- The empty string, bound to the positional data key in the source. -/
def dataKey : String := ""

/-- Embeds IdentifierEscapeEncoder.encode: check the key is an
identifier; the empty key would become the bare escape character and any
other key has each escape character doubled. -/
def encodeKey (char : Char) (s : String) : Except PErr String :=
  if isIdentifier s then
    .ok (if s = dataKey then String.mk [char] else String.mk (replace1 char [char, char] s.data))
  else .error .invalidKeyName

/-- Embeds IdentifierEscapeEncoder.decode: the bare escape character
becomes the empty key, otherwise doubled escape characters collapse. -/
def decodeKey (char : Char) (s : String) : String :=
  if s = String.mk [char] then dataKey else String.mk (replace2 char char [char] s.data)

/- ---------------------------------------------------------------------
   JSON reference pointers (JsonReferenceLinkManager and jsonpointer).
   --------------------------------------------------------------------- -/

def escChar : Char := '$'
def typeKey : String := "$type"
def versionKey : String := "$version"
def refKey : String := "$ref"

def pkeyStr : PKey → String
  | .num n => toString n
  | .str s => s

/-- JSON pointer escaping of one part. -/
def ptrEscape (s : String) : String :=
  String.mk (replace1 '/' ['~', '1'] (replace1 '~' ['~', '0'] s.data))

/-- Embeds JsonPointer.from_parts: each part escaped and preceded by a
slash. -/
def fromParts (p : Path) : String :=
  (p.map (fun k => "/" ++ ptrEscape (pkeyStr k))).foldl (fun acc s => acc ++ s) ""

def ptrUnescape (l : List Char) : String :=
  String.mk (replace2 '~' '0' ['~'] (replace2 '~' '1' ['/'] l))

def splitCh (d : Char) : List Char → List (List Char)
  | [] => [[]]
  | c :: rest =>
    if c = d then [] :: splitCh d rest
    else
      match splitCh d rest with
      | [] => [[c]]
      | g :: gs => (c :: g) :: gs

/-- Embeds JsonPointer parsing: the parts of a pointer string; the
pointer must be empty or begin with a slash. -/
def ptrParts (s : String) : Option (List String) :=
  match splitCh '/' s.data with
  | [] :: groups => Option.some (groups.map ptrUnescape)
  | _ => Option.none

/- ---------------------------------------------------------------------
   Wire trees.
   --------------------------------------------------------------------- -/

mutual
/-- A wire tree node: primitive, pass-through object, sequence, or
ordered mapping with string keys. -/
inductive Wire where
  | prim (p : PVal)
  | obj (a : Addr)
  | list (ws : WList)
  | map (es : WMap)
/-- Children of a wire sequence. -/
inductive WList where
  | nil
  | cons (w : Wire) (ws : WList)
/-- Entries of a wire mapping, in insertion order. -/
inductive WMap where
  | nil
  | cons (key : String) (w : Wire) (es : WMap)
end

def wlookup (k : String) : WMap → Option Wire
  | .nil => Option.none
  | .cons k0 w es => if k0 = k then Option.some w else wlookup k es

/-- Mapping update with dict semantics: overwrite in place or append. -/
def winsert (es : WMap) (k : String) (w : Wire) : WMap :=
  match es with
  | .nil => .cons k w .nil
  | .cons k0 w0 rest => if k0 = k then .cons k0 w rest else .cons k0 w0 (winsert rest k w)

def wmLen : WMap → Nat
  | .nil => 0
  | .cons _ _ es => wmLen es + 1

def wlGet : WList → Nat → Option Wire
  | .nil, _ => Option.none
  | .cons w _, 0 => Option.some w
  | .cons _ ws, n + 1 => wlGet ws n

def wlSet : WList → Nat → Wire → Option WList
  | .nil, _, _ => Option.none
  | .cons _ ws, 0, v => Option.some (.cons v ws)
  | .cons w ws, n + 1, v => (wlSet ws n v).map (fun r => .cons w r)

mutual
/-- Node count of a wire tree, used as traversal fuel for decoding: the
recursion depth of the decoder never exceeds it. -/
def wireWeight : Wire → Nat
  | .prim _ => 1
  | .obj _ => 1
  | .list ws => wlWeight ws + 1
  | .map es => wmWeight es + 1
def wlWeight : WList → Nat
  | .nil => 0
  | .cons w ws => wireWeight w + wlWeight ws
def wmWeight : WMap → Nat
  | .nil => 0
  | .cons _ w es => wireWeight w + wmWeight es
end

/-- Embeds JsonReferenceLinkManager.make_ref: a single-entry mapping
from the reference key to a fragment JSON pointer. -/
def makeRefW (dest : Path) : Wire :=
  .map (.cons refKey (.prim (.str ("#" ++ fromParts dest))) .nil)

/-- Embeds JsonReferenceLinkManager.is_ref: a mapping with exactly one
entry whose key is the reference key. -/
def isRefW : Wire → Bool
  | .map es => wmLen es == 1 && (wlookup refKey es).isSome
  | _ => false

/- ---------------------------------------------------------------------
   The registry (Preserializer.register and the lookup tables) and the
   Deconstructor classes.
   --------------------------------------------------------------------- -/

/-- Version identifiers may be ints or strings. -/
inductive Ver where
  | int (n : Int)
  | str (s : String)
deriving DecidableEq, Repr

def verWire : Ver → Wire
  | .int n => .prim (.int n)
  | .str s => .prim (.str s)

/-- The three Deconstructor classes of the source: InstanceDeconstructor,
DictDeconstructor, IterableDeconstructor. -/
inductive DKind where
  | instanceD
  | dictD
  | iterD
deriving DecidableEq, Repr

/-- A constructed Deconstructor instance. -/
structure Dec where
  kind : DKind
  cls : Ty
  name : String
  version : Option Ver
  ignore : List String
deriving DecidableEq, Repr

/-- The three lookup tables of a Preserializer. -/
structure Registry where
  deconstructors : List ((Ty × Option Ver) × Option Dec)
  versions : List (Ty × Ver)
  types : List ((String × Option Ver) × Ty)
deriving Repr

/-- A row of the registration table: a class, an optional Deconstructor
class, and the keyword options name, version and ignore. -/
structure RegRow where
  cls : Ty
  dk : Option DKind
  name : Option String := Option.none
  version : Option Ver := Option.none
  ignore : List String := []
deriving Repr

/-- Lowercased class name, the default wire tag. -/
def defaultTypeName : Ty → String
  | .int => "int"
  | .float => "float"
  | .str => "str"
  | .bool => "bool"
  | .noneTy => "nonetype"
  | .list => "list"
  | .tuple => "tuple"
  | .setT => "set"
  | .dict => "dict"
  | .cls n => String.mk (n.data.map Char.toLower)

/-- Embeds Preserializer.register.  With an absent Deconstructor class
the type is registered as pass-through under version None.  Otherwise
the Deconstructor constructor validates the resolved tag against the
type name grammar and raising happens here, at registration time. -/
def register (reg : Registry) (row : RegRow) : Except PErr Registry :=
  match row.dk with
  | Option.none =>
    .ok { reg with deconstructors := ((row.cls, Option.none), Option.none) :: reg.deconstructors }
  | Option.some k =>
    let nm := row.name.getD (defaultTypeName row.cls)
    if isTypeName escChar nm then
      let d : Dec := ⟨k, row.cls, nm, row.version, row.ignore⟩
      .ok { deconstructors := ((row.cls, row.version), Option.some d) :: reg.deconstructors,
            versions :=
              match row.version with
              | Option.some v => (row.cls, v) :: reg.versions
              | Option.none => reg.versions,
            types := ((nm, row.version), row.cls) :: reg.types }
    else .error .invalidTypeName

/-- Embeds Preserializer.register_types. -/
def registerTypes (reg : Registry) : List RegRow → Except PErr Registry
  | [] => .ok reg
  | row :: rest =>
    match register reg row with
    | .error e => .error e
    | .ok reg1 => registerTypes reg1 rest

def emptyRegistry : Registry := ⟨[], [], []⟩

/-- Registry obtained by registering rows on top of a base registry;
total helper (the theorems that use it establish that registration
succeeded). -/
def regOf (base : Registry) (rows : List RegRow) : Registry :=
  match registerTypes base rows with
  | .ok r => r
  | .error _ => emptyRegistry

/-- The registration table of the JSON preserializer (BASIC_TYPES plus
bool, NoneType and dict). -/
def jsonRows : List RegRow :=
  [⟨.int, Option.none, Option.none, Option.none, []⟩,
   ⟨.float, Option.none, Option.none, Option.none, []⟩,
   ⟨.str, Option.none, Option.none, Option.none, []⟩,
   ⟨.tuple, Option.some .iterD, Option.none, Option.none, []⟩,
   ⟨.setT, Option.some .iterD, Option.none, Option.none, []⟩,
   ⟨.bool, Option.none, Option.none, Option.none, []⟩,
   ⟨.noneTy, Option.none, Option.none, Option.none, []⟩,
   ⟨.dict, Option.some .dictD, Option.none, Option.none, []⟩]

def jsonRegistry : Registry := regOf emptyRegistry jsonRows

/-- Embeds get_deconstructor_from_type: the deconstructor registered for
the type under its current version, or UnregisteredTypeError. -/
def getDecFromType (reg : Registry) (t : Ty) : Except PErr (Option Dec) :=
  match alook (t, alook t reg.versions) reg.deconstructors with
  | Option.some d => .ok d
  | Option.none => .error .unregisteredType

/-- Version read back from a wire mapping.  The source compares the raw
datum against registered versions with dict lookup; only int and string
versions are ever written by the encoder. -/
def wireVer : Wire → Option Ver
  | .prim (.int n) => Option.some (.int n)
  | .prim (.str s) => Option.some (.str s)
  | _ => Option.none

/-- Embeds get_deconstructor_from_data: resolve the type from the tag
and version keys of the mapping, then its deconstructor; any lookup
failure raises UnregisteredTypeError. -/
def getDecFromData (reg : Registry) (es : WMap) : Except PErr Dec :=
  let version : Option Ver :=
    match wlookup versionKey es with
    | Option.some w => wireVer w
    | Option.none => Option.none
  match wlookup typeKey es with
  | Option.none => .error .unregisteredType
  | Option.some (.prim (.str nm)) =>
    match alook (nm, version) reg.types with
    | Option.none => .error .unregisteredType
    | Option.some t =>
      match alook (t, version) reg.deconstructors with
      | Option.some (Option.some d) => .ok d
      | Option.some Option.none => .error .internal
      | Option.none => .error .unregisteredType
  | Option.some _ => .error .unregisteredType

/-- A deconstructed positional argument.  The DictDeconstructor wraps
each dict item in a fresh two-element list; such a list has a fresh
identity that no other value aliases, so it is embedded directly as a
key-value pair rather than through the heap. -/
inductive ArgV where
  | v (x : V)
  | kv (k val : V)
deriving DecidableEq, Repr

def dictKwargs : List (V × V) → Option (List (String × V))
  | [] => Option.some []
  | (k, x) :: rest =>
    match k with
    | .prim (.str s) =>
      if isIdentifier s then (dictKwargs rest).map (fun l => (s, x) :: l)
      else Option.none
    | _ => Option.none

/-- Embeds the deconstruct methods.  IterableDeconstructor unpacks to a
positional list; DictDeconstructor uses kwargs when every key is an
identifier string, else positional key-value pairs; the
InstanceDeconstructor takes vars(obj) minus the ignore set. -/
def deconstructObj (d : Dec) (o : Obj) : Except PErr (Option (List ArgV) × Option (List (String × V)))
  :=
  match d.kind, o with
  | .iterD, .tuple items => .ok (Option.some (items.map .v), Option.none)
  | .iterD, .setO items => .ok (Option.some (items.map .v), Option.none)
  | .dictD, .dict items =>
    match dictKwargs items with
    | Option.some kw => .ok (Option.none, Option.some kw)
    | Option.none => .ok (Option.some (items.map (fun kv => .kv kv.1 kv.2)), Option.none)
  | .instanceD, .inst _ fields =>
    .ok (Option.none, Option.some (fields.filter (fun f => decide (f.1 ∉ d.ignore))))
  | _, _ => .error .internal

/- ---------------------------------------------------------------------
   Pre-serialization (Preserializer._preserialize and preserialize).
   --------------------------------------------------------------------- -/

abbrev EncM (α : Type) := Except PErr α

/-- Encoder state: the identity cache (id to path) and the ordered link
table (destination to insertion index and source list). -/
structure EncSt where
  pathCache : List (Addr × Path)
  links : List (Path × Nat × List Path)
deriving Repr

/-- Embeds LinkManager.add: create the destination entry at the next
insertion index if absent, then append the source. -/
def linksAdd (links : List (Path × Nat × List Path)) (source dest : Path) :
    List (Path × Nat × List Path) :=
  if links.any (fun e => decide (e.1 = dest)) then
    links.map (fun e => if e.1 = dest then (e.1, e.2.1, e.2.2 ++ [source]) else e)
  else links ++ [(dest, links.length, [source])]

abbrev EncRec := V → Path → EncSt → EncM (Wire × EncSt)

/-- Children of the list branch, at paths extended by the index. -/
def encListItems (rec : EncRec) (ppath : Path) : List V → Int → EncSt → EncM (WList × EncSt)
  | [], _, st => .ok (.nil, st)
  | v :: rest, i, st =>
    match rec v (ppath ++ [.num i]) st with
    | .error e => .error e
    | .ok (w, st1) =>
      match encListItems rec ppath rest (i + 1) st1 with
      | .error e => .error e
      | .ok (ws, st2) => .ok (.cons w ws, st2)

/-- Positional arguments, at paths extended by the data key and the
index.  A key-value pair is the fresh two-element list built by the
DictDeconstructor; it passes through the ordinary list branch, so its
components sit one level deeper. -/
def encArgItems (rec : EncRec) (ppath : Path) : List ArgV → Int → EncSt → EncM (WList × EncSt)
  | [], _, st => .ok (.nil, st)
  | .v x :: rest, i, st =>
    match rec x (ppath ++ [.str dataKey, .num i]) st with
    | .error e => .error e
    | .ok (w, st1) =>
      match encArgItems rec ppath rest (i + 1) st1 with
      | .error e => .error e
      | .ok (ws, st2) => .ok (.cons w ws, st2)
  | .kv k x :: rest, i, st =>
    match rec k (ppath ++ [.str dataKey, .num i, .num 0]) st with
    | .error e => .error e
    | .ok (wk, st1) =>
      match rec x (ppath ++ [.str dataKey, .num i, .num 1]) st1 with
      | .error e => .error e
      | .ok (wx, st2) =>
        match encArgItems rec ppath rest (i + 1) st2 with
        | .error e => .error e
        | .ok (ws, st3) => .ok (.cons (.list (.cons wk (.cons wx .nil))) ws, st3)

/-- Keyword arguments: each key is escape-encoded and the value sits at
the path extended by the encoded key. -/
def encKwItems (rec : EncRec) (ppath : Path) : List (String × V) → WMap → EncSt → EncM (WMap × EncSt)
  | [], acc, st => .ok (acc, st)
  | (key, x) :: rest, acc, st =>
    match encodeKey escChar key with
    | .error e => .error e
    | .ok ekey =>
      match rec x (ppath ++ [.str ekey]) st with
      | .error e => .error e
      | .ok (w, st1) => encKwItems rec ppath rest (winsert acc ekey w) st1

/-- Embeds Preserializer._preserialize.  The fuel counts nesting depth
and is a model artifact; the wrapper passes enough for any run that
terminates in the source (each level past the first caches a previously
uncached address). -/
def encAux (reg : Registry) (h : Heap) : Nat → V → Path → EncSt → EncM (Wire × EncSt)
  | 0, _, _, _ => .error .outOfFuel
  | fuel + 1, v, path, st =>
    match v with
    | .prim p =>
      match getDecFromType reg (primTy p) with
      | .error e => .error e
      | .ok Option.none => .ok (.prim p, st)
      | .ok (Option.some _) => .error .internal
    | .obj a =>
      match heapGet h a with
      | Option.none => .error .internal
      | Option.some (Obj.list items) =>
        match alook a st.pathCache with
        | Option.some dest => .ok (makeRefW dest, { st with links := linksAdd st.links path dest })
        | Option.none =>
          let st1 := { st with pathCache := (a, path) :: st.pathCache }
          match encListItems (encAux reg h fuel) path items 0 st1 with
          | .error e => .error e
          | .ok (ws, st2) => .ok (.list ws, st2)
      | Option.some o =>
        match getDecFromType reg (objTy o) with
        | .error e => .error e
        | .ok Option.none => .ok (.obj a, st)
        | .ok (Option.some d) =>
          match alook a st.pathCache with
          | Option.some dest =>
            .ok (makeRefW dest, { st with links := linksAdd st.links path dest })
          | Option.none =>
            let st1 := { st with pathCache := (a, path) :: st.pathCache }
            match deconstructObj d o with
            | .error e => .error e
            | .ok (args, kwargs) =>
              let m1 : WMap :=
                match d.version with
                | Option.some ver =>
                  .cons typeKey (.prim (.str d.name)) (.cons versionKey (verWire ver) .nil)
                | Option.none => .cons typeKey (.prim (.str d.name)) .nil
              match
                (match args with
                 | Option.some (a0 :: rest) =>
                   (match encArgItems (encAux reg h fuel) path (a0 :: rest) 0 st1 with
                    | .error e => (.error e : EncM (WMap × EncSt))
                    | .ok (ws, st2) => .ok (winsert m1 dataKey (.list ws), st2))
                 | _ => (.ok (m1, st1) : EncM (WMap × EncSt))) with
              | .error e => .error e
              | .ok (m2, st3) =>
                match kwargs with
                | Option.some (k0 :: rest) =>
                  (match encKwItems (encAux reg h fuel) path (k0 :: rest) m2 st3 with
                   | .error e => .error e
                   | .ok (m3, st4) => .ok (.map m3, st4))
                | _ => .ok (.map m2, st3)

/-- Embeds LinkManager.getitem over a wire tree.  The reference check
with unlabel_destination is the identity for the JSON link manager, so
indexing applies directly. -/
def wgetPath : Wire → Path → EncM Wire
  | w, [] => .ok w
  | w, k :: rest =>
    match w, k with
    | .list ws, .num n =>
      if n < 0 then .error .internal
      else
        match wlGet ws n.toNat with
        | Option.some w2 => wgetPath w2 rest
        | Option.none => .error .internal
    | .map es, .str s =>
      match wlookup s es with
      | Option.some w2 => wgetPath w2 rest
      | Option.none => .error .internal
    | _, _ => .error .internal

/-- Embeds LinkManager.setitem over a wire tree (pure rebuilding of the
mutation). -/
def wsetPath : Wire → Path → Wire → EncM Wire
  | _, [], _ => .error .internal
  | w, [k], v =>
    match w, k with
    | .list ws, .num n =>
      if n < 0 then .error .internal
      else
        match wlSet ws n.toNat v with
        | Option.some ws2 => .ok (.list ws2)
        | Option.none => .error .internal
    | .map es, .str s => .ok (.map (winsert es s v))
    | _, _ => .error .internal
  | w, k :: k2 :: rest, v =>
    match w, k with
    | .list ws, .num n =>
      if n < 0 then .error .internal
      else
        match wlGet ws n.toNat with
        | Option.some w2 =>
          (match wsetPath w2 (k2 :: rest) v with
           | .error e => .error e
           | .ok w3 =>
             match wlSet ws n.toNat w3 with
             | Option.some ws2 => .ok (.list ws2)
             | Option.none => .error .internal)
        | Option.none => .error .internal
    | .map es, .str s =>
      match wlookup s es with
      | Option.some w2 =>
        (match wsetPath w2 (k2 :: rest) v with
         | .error e => .error e
         | .ok w3 => .ok (.map (winsert es s w3)))
      | Option.none => .error .internal
    | _, _ => .error .internal

/-- Embeds LinkManager.label_data.  The label hook of the JSON link
manager is the identity, so each destination is read and written back
unchanged; an empty destination path labels the whole datum. -/
def labelData (links : List (Path × Nat × List Path)) (w : Wire) : EncM Wire :=
  match links with
  | [] => .ok w
  | (dest, _, _) :: rest =>
    match dest with
    | [] => labelData rest w
    | _ :: _ =>
      match wgetPath w dest with
      | .error e => .error e
      | .ok sub =>
        match wsetPath w dest sub with
        | .error e => .error e
        | .ok w2 => labelData rest w2

def encFuel (h : Heap) : Nat := h.length + 2

/-- Embeds Preserializer.preserialize: a fresh link manager, the
traversal, then the labelling pass. -/
def preserialize (reg : Registry) (h : Heap) (v : V) : EncM Wire :=
  match encAux reg h (encFuel h) v [] ⟨[], []⟩ with
  | .error e => .error e
  | .ok (w, st) => labelData st.links w

/- ---------------------------------------------------------------------
   De-pre-serialization (Preserializer._depreserialize, construct,
   LinkManager.set_sources, depreserialize).
   --------------------------------------------------------------------- -/

/-- A decoded value: a primitive, the address of a constructed (or
pass-through) object, or the reference-marker placeholder that the
source leaves in place until set_sources overwrites it. -/
inductive DVal where
  | prim (p : PVal)
  | addr (a : Addr)
  | marker (w : Wire)

/-- Objects built by the decoder; they may temporarily hold reference
placeholders, hence the dedicated value type. -/
inductive DObj where
  | list (items : List DVal)
  | tuple (items : List DVal)
  | setO (items : List DVal)
  | dict (items : List (DVal × DVal))
  | inst (cls : String) (fields : List (String × DVal))

/-- Equality used for dict keys on the decode side.  Reachable keys are
primitives; address keys compare by identity and placeholders never
collide (Python would compare such objects by value, but no modelled
configuration produces them as mapping keys). -/
def dvalKeyEq (x y : DVal) : Bool :=
  match x, y with
  | .prim p, .prim q => decide (p = q)
  | .addr a, .addr b => decide (a = b)
  | _, _ => false

/-- Dict update keyed by dvalKeyEq, insertion ordered. -/
def dinsert (k : DVal) (v : DVal) : List (DVal × DVal) → List (DVal × DVal)
  | [] => [(k, v)]
  | (k0, v0) :: rest => if dvalKeyEq k0 k then (k0, v) :: rest else (k0, v0) :: dinsert k v rest

/-- Decoder state: the constructed heap with its allocation counter, the
object cache (path to object), the link table and the recorded parent
deconstructors of deferred sources. -/
structure DecSt where
  heap : List (Addr × DObj)
  nextA : Addr
  objCache : List (Path × DVal)
  links : List (Path × Nat × List Path)
  parentDecs : List (Path × Option Dec)

def allocD (st : DecSt) (o : DObj) : DVal × DecSt :=
  (.addr st.nextA, { st with heap := (st.nextA, o) :: st.heap, nextA := st.nextA + 1 })

/-- Pairs fed to the dict initializer: each positional argument must be
an already-constructed two-element list. -/
def dictOfPairs (st : DecSt) : List DVal → Option (List (DVal × DVal))
  | [] => Option.some []
  | .addr a :: rest =>
    (match alook a st.heap with
     | Option.some (.list [k, x]) => (dictOfPairs st rest).map (fun l => (k, x) :: l)
     | _ => Option.none)
  | _ => Option.none

/-- Embeds the construct methods.  With positional arguments present the
class is called on them (dict and the iterables repack the single list
argument); otherwise a bare instance is allocated; keyword arguments are
then set one by one through the type-specific setattr. -/
def constructD (d : Dec) (args : List DVal) (kwargs : List (String × DVal)) (st : DecSt) :
    EncM (DVal × DecSt) :=
  match d.kind with
  | .instanceD =>
    match args with
    | _ :: _ => .error .internal
    | [] =>
      match d.cls with
      | .cls n =>
        let fields := kwargs.foldl (fun fs kv => ainsert kv.1 kv.2 fs) []
        .ok (allocD st (.inst n fields))
      | _ => .error .internal
  | .dictD =>
    match d.cls with
    | .dict =>
      (match dictOfPairs st args with
       | Option.none => .error .internal
       | Option.some items =>
         let items1 := kwargs.foldl (fun its kv => dinsert (.prim (.str kv.1)) kv.2 its) items
         .ok (allocD st (.dict items1)))
    | _ => .error .internal
  | .iterD =>
    match kwargs with
    | _ :: _ => .error .internal
    | [] =>
      match d.cls with
      | .tuple => .ok (allocD st (.tuple args))
      | .setT => .ok (allocD st (.setO args))
      | _ => .error .internal

abbrev DecRec := Wire → Path → Option Dec → DecSt → EncM (DVal × DecSt)

/-- Sequence children on the decode side, at paths extended by the
index; also used for the positional data list, whose items are likewise
enumerated from zero. -/
def decListItems (rec : DecRec) (ppath : Path) (pd : Option Dec) :
    WList → Int → DecSt → EncM (List DVal × DecSt)
  | .nil, _, st => .ok ([], st)
  | .cons w ws, i, st =>
    match rec w (ppath ++ [.num i]) pd st with
    | .error e => .error e
    | .ok (dv, st1) =>
      match decListItems rec ppath pd ws (i + 1) st1 with
      | .error e => .error e
      | .ok (dvs, st2) => .ok (dv :: dvs, st2)

/-- One pass over the entries of a tagged mapping, in order: the data
key contributes positional arguments (children carry the deconstructor
of the mapping as parent), reserved keys are skipped, and every other
key is decoded into the keyword dict. -/
def decEntries (rec : DecRec) (d : Dec) (ppath : Path) :
    WMap → List DVal → List (String × DVal) → DecSt →
    EncM (List DVal × List (String × DVal) × DecSt)
  | .nil, args, kwargs, st => .ok (args, kwargs, st)
  | .cons k w es, args, kwargs, st =>
    if k = dataKey then
      match w with
      | .list ws =>
        (match decListItems rec ppath (Option.some d) ws 0 st with
         | .error e => .error e
         | .ok (dvs, st1) => decEntries rec d ppath es (args ++ dvs) kwargs st1)
      | _ => .error .internal
    else if k = typeKey ∨ k = versionKey then decEntries rec d ppath es args kwargs st
    else
      let dkey := decodeKey escChar k
      match rec w (ppath ++ [.str dkey]) (Option.some d) st with
      | .error e => .error e
      | .ok (dv, st1) => decEntries rec d ppath es args (ainsert dkey dv kwargs) st1

/-- Resolution of a reference marker: extract the fragment pointer,
normalize it to a destination path (drop the positional data parts,
cast the numeric parts), and either yield the already-built object or
record a deferred link with the parent deconstructor and leave the
marker in place. -/
def refResolve (path : Path) (parentDec : Option Dec) (st : DecSt) (es : WMap) :
    EncM (DVal × DecSt) :=
  match wlookup refKey es with
  | Option.some (.prim (.str v)) =>
    (match v.data with
     | '#' :: tl =>
       (match ptrParts (String.mk tl) with
        | Option.none => .error .internal
        | Option.some parts =>
          let dest : Path := (parts.filter (fun s => decide (s ≠ dataKey))).map castInt
          match alook dest st.objCache with
          | Option.some dv => .ok (dv, st)
          | Option.none =>
            let st1 :=
              { st with
                links := linksAdd st.links path dest
                parentDecs := (path, parentDec) :: st.parentDecs }
            .ok (.marker (.map es), st1))
     | _ => .error .unsupportedReference)
  | Option.some _ => .error .internal
  | Option.none => .error .internal

/-- Embeds Preserializer._depreserialize.  The unused doc parameter of
the source is omitted.  The fuel counts nesting depth; the wrapper
passes the node count of the tree, which the depth never exceeds. -/
def decAux (reg : Registry) (inH : Heap) : Nat → Wire → Path → Option Dec → DecSt →
    EncM (DVal × DecSt)
  | 0, _, _, _, _ => .error .outOfFuel
  | fuel + 1, data, path, parentDec, st =>
    match data with
    | .prim p =>
      match getDecFromType reg (primTy p) with
      | .error e => .error e
      | .ok Option.none => .ok (.prim p, st)
      | .ok (Option.some _) => .error .internal
    | .obj a =>
      (match heapGet inH a with
       | Option.none => .error .internal
       | Option.some o =>
         if objTy o = Ty.list ∨ objTy o = Ty.dict then .error .internal
         else
           match getDecFromType reg (objTy o) with
           | .error e => .error e
           | .ok Option.none => .ok (.addr a, st)
           | .ok (Option.some _) => .error .internal)
    | .list ws =>
      (match decListItems (decAux reg inH fuel) path Option.none ws 0 st with
       | .error e => .error e
       | .ok (items, st1) =>
         let (dv, st2) := allocD st1 (.list items)
         .ok (dv, { st2 with objCache := (path, dv) :: st2.objCache }))
    | .map es =>
      if isRefW (.map es) then refResolve path parentDec st es
      else
        match getDecFromData reg es with
        | .error e => .error e
        | .ok d =>
          match decEntries (decAux reg inH fuel) d path es [] [] st with
          | .error e => .error e
          | .ok (args, kwargs, st1) =>
            match constructD d args kwargs st1 with
            | .error e => .error e
            | .ok (dv, st2) => .ok (dv, { st2 with objCache := (path, dv) :: st2.objCache })

/-- Last component and parent slice of a source path. -/
def splitLast {α : Type} : List α → Option (List α × α)
  | [] => Option.none
  | [x] => Option.some ([], x)
  | x :: y :: rest => (splitLast (y :: rest)).map (fun p => (x :: p.1, p.2))

/-- Convert a path key to the dict key the setattr of a mapping parent
uses. -/
def pkeyDVal : PKey → DVal
  | .num n => .prim (.int n)
  | .str s => .prim (.str s)

/-- Embeds the setattr methods used by set_sources through a recorded
parent deconstructor: field assignment for instances, key assignment
for dicts; item assignment on a tuple or a set raises in Python. -/
def setattrD (d : Dec) (st : DecSt) (pa : Addr) (key : PKey) (value : DVal) : EncM DecSt :=
  match alook pa st.heap with
  | Option.none => .error .internal
  | Option.some o =>
    match d.kind, o, key with
    | .instanceD, .inst n fields, .str s =>
      .ok { st with heap := ainsert pa (.inst n (ainsert s value fields)) st.heap }
    | .dictD, .dict items, k =>
      .ok { st with heap := ainsert pa (.dict (dinsert (pkeyDVal k) value items)) st.heap }
    | _, _, _ => .error .internal

/-- Item assignment on a parent recorded with no deconstructor: only
list parents are reachable. -/
def containerSet (st : DecSt) (pa : Addr) (key : PKey) (value : DVal) : EncM DecSt :=
  match alook pa st.heap, key with
  | Option.some (.list items), .num n =>
    if 0 ≤ n ∧ n.toNat < items.length then
      .ok { st with heap := ainsert pa (.list (items.set n.toNat value)) st.heap }
    else .error .internal
  | _, _ => .error .internal

def applyOneSource (st : DecSt) (destObj : DVal) (source : Path) : EncM DecSt :=
  match alook source st.parentDecs with
  | Option.none => .error .internal
  | Option.some pd =>
    match splitLast source with
    | Option.none => .error .internal
    | Option.some (ppath, key) =>
      match alook ppath st.objCache with
      | Option.some (.addr pa) =>
        (match pd with
         | Option.some d => setattrD d st pa key destObj
         | Option.none => containerSet st pa key destObj)
      | _ => .error .internal

def applySources (st : DecSt) (destObj : DVal) : List Path → EncM DecSt
  | [] => .ok st
  | source :: rest =>
    match applyOneSource st destObj source with
    | .error e => .error e
    | .ok st1 => applySources st1 destObj rest

/-- Embeds LinkManager.set_sources: for every link, in insertion order,
the destination object replaces the placeholder at each source. -/
def setSourcesGo (st : DecSt) : List (Path × Nat × List Path) → EncM DecSt
  | [] => .ok st
  | (dest, _, sources) :: rest =>
    match alook dest st.objCache with
    | Option.none => .error .internal
    | Option.some destObj =>
      match applySources st destObj sources with
      | .error e => .error e
      | .ok st1 => setSourcesGo st1 rest

def setSources (st : DecSt) : EncM DecSt := setSourcesGo st st.links

/-- First address past every address of the input graph, so that decoded
allocations never collide with pass-through objects. -/
def freshBase (inH : Heap) : Addr := inH.foldl (fun m e => max m (e.1 + 1)) 0

def decFuel (w : Wire) : Nat := wireWeight w + 1

/-- Embeds Preserializer.depreserialize: a fresh link manager, the
traversal from the root path, then the deferred source patches.  The
result is the root value together with the constructed heap. -/
def depreserialize (reg : Registry) (inH : Heap) (w : Wire) : EncM (DVal × List (Addr × DObj)) :=
  match decAux reg inH (decFuel w) w [] Option.none ⟨[], freshBase inH, [], [], []⟩ with
  | .error e => .error e
  | .ok (root, st) =>
    match setSources st with
    | .error e => .error e
    | .ok st1 => .ok (root, st1.heap)

/- ---------------------------------------------------------------------
   Helper lemmas about identifiers and the key encoder.
   --------------------------------------------------------------------- -/

theorem mk_data (s : String) : String.mk s.data = s := by
  cases s
  rfl

theorem wordStart_wordChar {c : Char} (h : wordStart c = true) : wordChar c = true := by
  simp only [wordStart, Bool.or_eq_true] at h
  rcases h with h | h
  · simp [wordChar, Char.isAlphanum, h]
  · simp [wordChar, h]

theorem ident_mem_wordChar {s : String} {c : Char} (h : isIdentifier s = true)
    (hm : c ∈ s.data) : wordChar c = true := by
  unfold isIdentifier isIdentifierL at h
  cases hd : s.data with
  | nil => rw [hd] at h; exact absurd h (by simp)
  | cons c0 rest =>
    rw [hd] at h hm
    rw [Bool.and_eq_true] at h
    rcases List.mem_cons.mp hm with rfl | hmem
    · exact wordStart_wordChar h.1
    · exact List.all_eq_true.mp h.2 c hmem

theorem ident_not_mem {s : String} {c : Char} (h : isIdentifier s = true)
    (hc : wordChar c = false) : c ∉ s.data := fun hm => by
  rw [ident_mem_wordChar h hm] at hc
  exact Bool.noConfusion hc

theorem replace1_eq_self {a : Char} {rep : List Char} :
    ∀ {l : List Char}, a ∉ l → replace1 a rep l = l
  | [], _ => rfl
  | c :: rest, h => by
    have hca : ¬ (c = a) := fun hc => h (hc ▸ List.mem_cons_self c rest)
    rw [replace1, if_neg hca, replace1_eq_self (fun hm => h (List.mem_cons_of_mem c hm))]

theorem replace2_cons_ne {a b x : Char} {rep T : List Char} (hx : ¬ (x = a)) :
    replace2 a b rep (x :: T) = x :: replace2 a b rep T := by
  cases T with
  | nil => rfl
  | cons t ts =>
    rw [replace2, if_neg]
    intro hand
    exact hx hand.1

theorem replace2_eq_self {a b : Char} {rep : List Char} :
    ∀ {l : List Char}, a ∉ l → replace2 a b rep l = l
  | [], _ => rfl
  | c :: rest, h => by
    have hca : ¬ (c = a) := fun hc => h (hc ▸ List.mem_cons_self c rest)
    rw [replace2_cons_ne hca, replace2_eq_self (fun hm => h (List.mem_cons_of_mem c hm))]

theorem ident_ne_empty {s : String} (h : isIdentifier s = true) : ¬ (s = dataKey) := by
  intro heq
  rw [heq] at h
  exact absurd h (by decide)

theorem ident_ne_typeKey {s : String} (h : isIdentifier s = true) : ¬ (s = typeKey) := by
  intro heq
  rw [heq] at h
  exact absurd h (by decide)

theorem ident_ne_versionKey {s : String} (h : isIdentifier s = true) : ¬ (s = versionKey) := by
  intro heq
  rw [heq] at h
  exact absurd h (by decide)

theorem ident_ne_dollar {s : String} (h : isIdentifier s = true) :
    ¬ (s = String.mk [escChar]) := by
  intro heq
  rw [heq] at h
  exact absurd h (by decide)

theorem escChar_not_wordChar : wordChar escChar = false := by decide

/-- On an identifier the escape encoder is the identity: no identifier
contains the escape character, so the doubling does not fire, and the
empty-key branch is unreachable. -/
theorem encodeKey_ident {s : String} (h : isIdentifier s = true) :
    encodeKey escChar s = .ok s := by
  unfold encodeKey
  rw [if_pos h, if_neg (ident_ne_empty h),
    replace1_eq_self (ident_not_mem h escChar_not_wordChar), mk_data]

/-- On an identifier the escape decoder is the identity. -/
theorem decodeKey_ident {s : String} (h : isIdentifier s = true) :
    decodeKey escChar s = s := by
  unfold decodeKey
  rw [if_neg (ident_ne_dollar h),
    replace2_eq_self (ident_not_mem h escChar_not_wordChar), mk_data]

theorem wireVer_verWire (v : Ver) : wireVer (verWire v) = Option.some v := by
  cases v <;> rfl

/- ---------------------------------------------------------------------
   Claim theorems.
   --------------------------------------------------------------------- -/

/-- C6: for every primitive scalar whose type is registered with an
absent Deconstructor, preserialize yields the value itself and
depreserialize yields the value itself (constructing nothing). -/
theorem c6_primitive_identity (reg : Registry) (h : Heap) (p : PVal)
    (hdec : getDecFromType reg (primTy p) = .ok Option.none) :
    preserialize reg h (.prim p) = .ok (.prim p) ∧
    depreserialize reg h (.prim p) = .ok (.prim p, []) := by
  constructor
  · simp [preserialize, encFuel, encAux, hdec, labelData]
  · simp [depreserialize, decFuel, wireWeight, decAux, hdec, setSources, setSourcesGo]

theorem c6_primitive_identity_witness :
    getDecFromType jsonRegistry (primTy (.int 123)) = .ok Option.none ∧
    preserialize jsonRegistry [] (.prim (.int 123)) = .ok (.prim (.int 123)) ∧
    depreserialize jsonRegistry [] (.prim (.int 123)) = .ok (.prim (.int 123), []) :=
  ⟨by rfl,
   (c6_primitive_identity jsonRegistry [] (.int 123) (by rfl)).1,
   (c6_primitive_identity jsonRegistry [] (.int 123) (by rfl)).2⟩

/-- Heap holding the mapping from brian to naughty boy (identifier
keys). -/
def c3HeapKw : Heap := [(0, .dict [(.prim (.str "brian"), .prim (.str "naughty boy"))])]

/-- Expected encoding of the identifier-keyed mapping. -/
def c3WireKw : Wire :=
  .map (.cons "$type" (.prim (.str "dict")) (.cons "brian" (.prim (.str "naughty boy")) .nil))

/-- Heap holding the mapping with mixed key types (a string key and the
int key 3). -/
def c3HeapMixed : Heap :=
  [(0, .dict [(.prim (.str "brian"), .prim (.str "naughty boy")),
              (.prim (.int 3), .prim (.str "Antioch"))])]

/-- Expected encoding of the mixed-key mapping: positional list of
key-value pairs under the empty data key. -/
def c3WireMixed : Wire :=
  .map (.cons "$type" (.prim (.str "dict"))
    (.cons "" (.list
      (.cons (.list (.cons (.prim (.str "brian")) (.cons (.prim (.str "naughty boy")) .nil)))
        (.cons (.list (.cons (.prim (.int 3)) (.cons (.prim (.str "Antioch")) .nil))) .nil)))
      .nil))

/-- C3: under the JSON preserializer the identifier-keyed mapping
encodes to kwargs form, the mixed-key mapping encodes to the positional
pair-list form, and each wire tree decodes back to a mapping equal to
the original down to key types (the decoder also allocates the
transient pair lists the wire holds, as the source does). -/
theorem c3_dict_literals :
    preserialize jsonRegistry c3HeapKw (.obj 0) = .ok c3WireKw ∧
    depreserialize jsonRegistry [] c3WireKw =
      .ok (.addr 0, [(0, .dict [(.prim (.str "brian"), .prim (.str "naughty boy"))])]) ∧
    preserialize jsonRegistry c3HeapMixed (.obj 0) = .ok c3WireMixed ∧
    depreserialize jsonRegistry [] c3WireMixed =
      .ok (.addr 2,
        [(2, .dict [(.prim (.str "brian"), .prim (.str "naughty boy")),
                    (.prim (.int 3), .prim (.str "Antioch"))]),
         (1, .list [.prim (.int 3), .prim (.str "Antioch")]),
         (0, .list [.prim (.str "brian"), .prim (.str "naughty boy")])]) :=
  ⟨by rfl, by rfl, by rfl, by rfl⟩

/-- C7: registering a type whose resolved wire tag (the explicit name
option, or the lowercased type name by default) fails the dotted
identifier grammar raises the invalid-type-name error from register
itself, before any object is processed; a grammar-conforming tag
registers without raising. -/
theorem c7_registration_grammar (reg : Registry) (row : RegRow) (k : DKind)
    (hk : row.dk = Option.some k) :
    (isTypeName escChar (row.name.getD (defaultTypeName row.cls)) = false →
      register reg row = .error .invalidTypeName) ∧
    (isTypeName escChar (row.name.getD (defaultTypeName row.cls)) = true →
      ∃ reg2, register reg row = .ok reg2) := by
  unfold register
  rw [hk]
  constructor
  · intro hbad
    simp [hbad]
  · intro hgood
    simp only [hgood, if_true, ite_true]
    exact ⟨_, rfl⟩

theorem c7_registration_grammar_witness :
    ((⟨.cls "Bad", Option.some .instanceD, Option.some "3bad", Option.none, []⟩ : RegRow).dk
        = Option.some .instanceD) ∧
    (register jsonRegistry ⟨.cls "Bad", Option.some .instanceD, Option.some "3bad",
        Option.none, []⟩ = .error .invalidTypeName) ∧
    ((⟨.cls "Parrot", Option.some .instanceD, Option.none, Option.none, []⟩ : RegRow).dk
        = Option.some .instanceD) ∧
    (∃ reg2, register jsonRegistry ⟨.cls "Parrot", Option.some .instanceD, Option.none,
        Option.none, []⟩ = .ok reg2) :=
  ⟨rfl,
   (c7_registration_grammar jsonRegistry _ .instanceD rfl).1 (by decide),
   rfl,
   (c7_registration_grammar jsonRegistry _ .instanceD rfl).2 (by decide)⟩

/-- Undoing the doubling: collapsing pairs of the escape character
recovers the original string, whatever it contains. -/
theorem replace1_replace2_undo (c : Char) :
    ∀ l : List Char, replace2 c c [c] (replace1 c [c, c] l) = l := by
  intro l
  induction l with
  | nil => rfl
  | cons c0 rest ih =>
    by_cases hc : c0 = c
    · subst hc
      rw [replace1, if_pos rfl]
      show replace2 c0 c0 [c0] (c0 :: c0 :: replace1 c0 [c0, c0] rest) = c0 :: rest
      rw [replace2, if_pos ⟨rfl, rfl⟩]
      simpa using ih
    · rw [replace1, if_neg hc, replace2_cons_ne hc, ih]

theorem replace1_double_ne_single (c : Char) (l : List Char) :
    ¬ (replace1 c [c, c] l = [c]) := by
  intro h
  have hl : l = [c] := by
    have h2 := congrArg (replace2 c c [c]) h
    rw [replace1_replace2_undo] at h2
    simpa using h2
  rw [hl] at h
  simp [replace1] at h

/-- C5 counterexample: the claim says a key equal to the escape
character is encoded as the positional-arguments sentinel; in fact the
encoder raises on it, because the escape character is not an
identifier (and the decoder maps the bare escape character to the
empty positional key, the converse direction). -/
theorem c5_escape_key_counterexample :
    encodeKey escChar (String.mk [escChar]) = .error .invalidKeyName ∧
    decodeKey escChar (String.mk [escChar]) = dataKey := ⟨by rfl, by rfl⟩

/-- C5 amended: encode accepts exactly the identifier-like keys and on
them doubles every occurrence of the escape character (for the JSON
escape character this is the identity and a key equal to the escape
character is rejected, since the escape character is not an
identifier); the unreachable empty-key branch aside, decode undoes the
doubling, so decode after encode is the identity on every accepted
key, and encode raises on every other key. -/
theorem c5_escape_amended (c : Char) (s : String) :
    (isIdentifier s = true →
      encodeKey c s = .ok (String.mk (replace1 c [c, c] s.data)) ∧
      decodeKey c (String.mk (replace1 c [c, c] s.data)) = s) ∧
    (isIdentifier s = false → encodeKey c s = .error .invalidKeyName) := by
  constructor
  · intro h
    constructor
    · unfold encodeKey
      rw [if_pos h, if_neg (ident_ne_empty h)]
    · unfold decodeKey
      have hne : ¬ (String.mk (replace1 c [c, c] s.data) = String.mk [c]) := by
        intro he
        exact replace1_double_ne_single c s.data (congrArg String.data he)
      rw [if_neg hne, replace1_replace2_undo, mk_data]
  · intro h
    unfold encodeKey
    rw [if_neg (by rw [h]; exact Bool.noConfusion)]

theorem c5_escape_amended_witness :
    (encodeKey escChar "brian" = .ok (String.mk (replace1 escChar [escChar, escChar]
        ("brian" : String).data)) ∧
      decodeKey escChar (String.mk (replace1 escChar [escChar, escChar]
        ("brian" : String).data)) = "brian") ∧
    encodeKey escChar "a$b" = .error .invalidKeyName :=
  ⟨(c5_escape_amended escChar "brian").1 (by decide),
   (c5_escape_amended escChar "a$b").2 (by decide)⟩

/-- Registry with a custom class registered pass-through (an absent
Deconstructor), on top of the JSON types. -/
def c9Reg : Registry :=
  regOf jsonRegistry [⟨.cls "Opaque", Option.none, Option.none, Option.none, []⟩]

/-- A graph in which the same pass-through object occurs at two
positions of a list. -/
def c9Heap : Heap := [(0, .list [.obj 1, .obj 1]), (1, .inst "Opaque" [("x", .prim (.int 5))])]

/-- C9: identity tracking applies only to deconstructible values.  A
primitive of a pass-through type, and an object of a pass-through type,
are emitted as themselves with the traversal state unchanged: nothing
enters the identity cache and no link (hence no reference marker) is
recorded, whatever the cache already holds.  Concretely, a graph with
the same pass-through object at two positions encodes it in full twice,
caching only the enclosing list and recording no link. -/
theorem c9_passthrough_not_tracked :
    (∀ (reg : Registry) (h : Heap) (fuel : Nat) (p : PVal) (path : Path) (st : EncSt),
      getDecFromType reg (primTy p) = .ok Option.none →
      encAux reg h (fuel + 1) (.prim p) path st = .ok (.prim p, st)) ∧
    (∀ (reg : Registry) (h : Heap) (fuel : Nat) (a : Addr) (o : Obj) (path : Path) (st : EncSt),
      heapGet h a = Option.some o → ¬ (objTy o = Ty.list) →
      getDecFromType reg (objTy o) = .ok Option.none →
      encAux reg h (fuel + 1) (.obj a) path st = .ok (.obj a, st)) ∧
    encAux c9Reg c9Heap 4 (.obj 0) [] ⟨[], []⟩ =
      .ok (.list (.cons (.obj 1) (.cons (.obj 1) .nil)), ⟨[(0, [])], []⟩) := by
  refine ⟨?_, ?_, by rfl⟩
  · intro reg h fuel p path st hdec
    simp [encAux, hdec]
  · intro reg h fuel a o path st hget hnl hdec
    cases o with
    | list items => exact absurd (rfl : objTy (Obj.list items) = Ty.list) hnl
    | tuple items => simp [encAux, hget, hdec]
    | setO items => simp [encAux, hget, hdec]
    | dict items => simp [encAux, hget, hdec]
    | inst c fields => simp [encAux, hget, hdec]

theorem c9_passthrough_not_tracked_witness :
    (getDecFromType c9Reg (primTy (.bool true)) = .ok Option.none ∧
      encAux c9Reg c9Heap 3 (.prim (.bool true)) [] ⟨[], []⟩ =
        .ok (.prim (.bool true), ⟨[], []⟩)) ∧
    (heapGet c9Heap 1 = Option.some (.inst "Opaque" [("x", .prim (.int 5))]) ∧
      encAux c9Reg c9Heap 3 (.obj 1) [.num 0] ⟨[(0, [])], []⟩ =
        .ok (.obj 1, ⟨[(0, [])], []⟩)) :=
  ⟨⟨by rfl, c9_passthrough_not_tracked.1 c9Reg c9Heap 2 (.bool true) [] ⟨[], []⟩ (by rfl)⟩,
   ⟨by rfl, c9_passthrough_not_tracked.2.1 c9Reg c9Heap 2 1
      (.inst "Opaque" [("x", .prim (.int 5))]) [.num 0] ⟨[(0, [])], []⟩ (by rfl)
      (by simp [objTy]) (by rfl)⟩⟩

/-- Normal form of the JSON registry. -/
theorem jsonRegistry_eq : jsonRegistry =
    { deconstructors :=
        [((.dict, Option.none), Option.some ⟨.dictD, .dict, "dict", Option.none, []⟩),
         ((.noneTy, Option.none), Option.none),
         ((.bool, Option.none), Option.none),
         ((.setT, Option.none), Option.some ⟨.iterD, .setT, "set", Option.none, []⟩),
         ((.tuple, Option.none), Option.some ⟨.iterD, .tuple, "tuple", Option.none, []⟩),
         ((.str, Option.none), Option.none),
         ((.float, Option.none), Option.none),
         ((.int, Option.none), Option.none)],
      versions := [],
      types := [(("dict", Option.none), .dict), (("set", Option.none), .setT),
        (("tuple", Option.none), .tuple)] } := by rfl

/-- Registration table that registers the same class twice, under the
same tag with two versions. -/
def c4Rows (c t : String) (v1 v2 : Ver) : List RegRow :=
  [⟨.cls c, Option.some .instanceD, Option.some t, Option.some v1, []⟩,
   ⟨.cls c, Option.some .instanceD, Option.some t, Option.some v2, []⟩]

/-- C4: with two versions registered for a type, encoding an object of
that type selects the most recently registered Deconstructor and stamps
its version into the wire mapping, while decoding accepts a tree tagged
with either registered (name, version) pair and reconstructs an
instance of the corresponding type. -/
theorem c4_versioning (c t : String) (v1 v2 : Ver)
    (ht : isTypeName escChar t = true) (hv : ¬ (v1 = v2)) :
    preserialize (regOf jsonRegistry (c4Rows c t v1 v2)) [(0, .inst c [])] (.obj 0) =
      .ok (.map (.cons typeKey (.prim (.str t)) (.cons versionKey (verWire v2) .nil))) ∧
    (∀ v : Ver, v = v1 ∨ v = v2 →
      depreserialize (regOf jsonRegistry (c4Rows c t v1 v2)) []
          (.map (.cons typeKey (.prim (.str t)) (.cons versionKey (verWire v) .nil))) =
        .ok (.addr 0, [(0, .inst c [])])) := by
  have hv2 : ¬ (v2 = v1) := fun he => hv he.symm
  have hreg : regOf jsonRegistry (c4Rows c t v1 v2) =
      { deconstructors :=
          ((Ty.cls c, Option.some v2), Option.some ⟨.instanceD, .cls c, t, Option.some v2, []⟩) ::
          ((Ty.cls c, Option.some v1), Option.some ⟨.instanceD, .cls c, t, Option.some v1, []⟩) ::
          jsonRegistry.deconstructors,
        versions := (Ty.cls c, v2) :: (Ty.cls c, v1) :: jsonRegistry.versions,
        types := ((t, Option.some v2), Ty.cls c) :: ((t, Option.some v1), Ty.cls c) ::
          jsonRegistry.types } := by
    simp [c4Rows, regOf, registerTypes, register, ht]
  rw [jsonRegistry_eq] at hreg
  constructor
  · simp [hreg, jsonRegistry_eq, preserialize, encFuel, encAux, heapGet, alook,
      getDecFromType, objTy, primTy, deconstructObj, defaultTypeName, labelData,
      typeKey, versionKey, dataKey]
  · intro v hv12
    rcases hv12 with rfl | rfl
    · simp [hreg, jsonRegistry_eq, depreserialize, decFuel, wireWeight, wmWeight, decAux,
        isRefW, wmLen, wlookup, getDecFromData, wireVer_verWire, alook, decEntries,
        constructD, allocD, setSources, setSourcesGo, freshBase, typeKey, versionKey,
        dataKey, refKey, objTy, primTy, defaultTypeName, hv2]
    · simp [hreg, jsonRegistry_eq, depreserialize, decFuel, wireWeight, wmWeight, decAux,
        isRefW, wmLen, wlookup, getDecFromData, wireVer_verWire, alook, decEntries,
        constructD, allocD, setSources, setSourcesGo, freshBase, typeKey, versionKey,
        dataKey, refKey, objTy, primTy, defaultTypeName]

theorem c4_versioning_witness :
    (isTypeName escChar "parrot" = true) ∧
    preserialize (regOf jsonRegistry (c4Rows "Parrot" "parrot" (.int 1) (.int 2)))
        [(0, .inst "Parrot" [])] (.obj 0) =
      .ok (.map (.cons typeKey (.prim (.str "parrot"))
        (.cons versionKey (verWire (.int 2)) .nil))) ∧
    depreserialize (regOf jsonRegistry (c4Rows "Parrot" "parrot" (.int 1) (.int 2))) []
        (.map (.cons typeKey (.prim (.str "parrot")) (.cons versionKey (verWire (.int 1)) .nil))) =
      .ok (.addr 0, [(0, .inst "Parrot" [])]) ∧
    depreserialize (regOf jsonRegistry (c4Rows "Parrot" "parrot" (.int 1) (.int 2))) []
        (.map (.cons typeKey (.prim (.str "parrot")) (.cons versionKey (verWire (.int 2)) .nil))) =
      .ok (.addr 0, [(0, .inst "Parrot" [])]) :=
  ⟨by decide,
   (c4_versioning "Parrot" "parrot" (.int 1) (.int 2) (by decide) (by decide)).1,
   (c4_versioning "Parrot" "parrot" (.int 1) (.int 2) (by decide) (by decide)).2
     (.int 1) (Or.inl rfl),
   (c4_versioning "Parrot" "parrot" (.int 1) (.int 2) (by decide) (by decide)).2
     (.int 2) (Or.inr rfl)⟩

/-- Registration table registering one class under a tag with no
version. -/
def c10Rows (c t : String) : List RegRow :=
  [⟨.cls c, Option.some .instanceD, Option.some t, Option.none, []⟩]

/-- C10: with a version-less Deconstructor the emitted wire mapping
omits the version key entirely (it carries only the type tag plus the
encoded payload), and decoding such a mapping reads the absent version
key as None and resolves the deconstructor registered under the pair of
the type and None, reconstructing the instance. -/
theorem c10_version_omitted (c t f : String) (q : PVal)
    (ht : isTypeName escChar t = true) (hf : isIdentifier f = true) :
    preserialize (regOf jsonRegistry (c10Rows c t)) [(0, .inst c [(f, .prim q)])] (.obj 0) =
      .ok (.map (.cons typeKey (.prim (.str t)) (.cons f (.prim q) .nil))) ∧
    wlookup versionKey (.cons typeKey (.prim (.str t)) (.cons f (.prim q) .nil)) =
      Option.none ∧
    depreserialize (regOf jsonRegistry (c10Rows c t)) []
        (.map (.cons typeKey (.prim (.str t)) (.cons f (.prim q) .nil))) =
      .ok (.addr 0, [(0, .inst c [(f, .prim q)])]) := by
  have hreg : regOf jsonRegistry (c10Rows c t) =
      { deconstructors :=
          ((Ty.cls c, Option.none), Option.some ⟨.instanceD, .cls c, t, Option.none, []⟩) ::
          jsonRegistry.deconstructors,
        versions := jsonRegistry.versions,
        types := ((t, Option.none), Ty.cls c) :: jsonRegistry.types } := by
    simp [c10Rows, regOf, registerTypes, register, ht]
  rw [jsonRegistry_eq] at hreg
  have hfd : ¬ (f = "") := by simpa [dataKey] using ident_ne_empty hf
  have hfty : ¬ (f = "$type") := by simpa [typeKey] using ident_ne_typeKey hf
  have hfv : ¬ (f = "$version") := by simpa [versionKey] using ident_ne_versionKey hf
  have hft : ¬ ("$type" = f) := fun he => hfty he.symm
  have hfv2 : ¬ ("$version" = f) := fun he => hfv he.symm
  refine ⟨?_, ?_, ?_⟩
  · cases q <;>
      simp [jsonRegistry_eq, hreg, preserialize, encFuel, encAux, heapGet, alook,
        getDecFromType, objTy, primTy, deconstructObj, labelData, encKwItems,
        encodeKey_ident hf, winsert, hft, hfv2, typeKey, versionKey, dataKey]
  · simp [wlookup, hfv, hfv2, typeKey, versionKey]
  · cases q <;>
      simp [jsonRegistry_eq, hreg, depreserialize, decFuel, wireWeight, wmWeight, decAux,
        isRefW, wmLen, wlookup, getDecFromData, getDecFromType, alook, decEntries, constructD, allocD,
        setSources, setSourcesGo, freshBase, objTy, primTy, decodeKey_ident hf, ainsert,
        hfd, hfty, hfv, hft, hfv2, typeKey, versionKey, dataKey, refKey]


theorem c10_version_omitted_witness :
    preserialize (regOf jsonRegistry (c10Rows "Egg" "egg"))
        [(0, .inst "Egg" [("from_parrot", .prim .noneV)])] (.obj 0) =
      .ok (.map (.cons typeKey (.prim (.str "egg"))
        (.cons "from_parrot" (.prim .noneV) .nil))) ∧
    wlookup versionKey (.cons typeKey (.prim (.str "egg"))
        (.cons "from_parrot" (.prim .noneV) .nil)) = Option.none ∧
    depreserialize (regOf jsonRegistry (c10Rows "Egg" "egg")) []
        (.map (.cons typeKey (.prim (.str "egg")) (.cons "from_parrot" (.prim .noneV) .nil))) =
      .ok (.addr 0, [(0, .inst "Egg" [("from_parrot", .prim .noneV)])]) :=
  c10_version_omitted "Egg" "egg" "from_parrot" .noneV (by decide) (by decide)


/-- Registration table for the shared-reference scenario. -/
def c2Rows (c t : String) : List RegRow :=
  [⟨.cls c, Option.some .instanceD, Option.some t, Option.none, []⟩]

/-- A graph in which one instance identity is reachable via two
distinct paths of a list, with no cycle. -/
def c2Heap (c f : String) (q : PVal) : Heap :=
  [(0, .list [.obj 1, .obj 1]), (1, .inst c [(f, .prim q)])]

/-- Expected encoding: exactly one full substructure at the first
visited path and exactly one reference marker at the second path. -/
def c2Wire (t f : String) (q : PVal) : Wire :=
  .list (.cons (.map (.cons typeKey (.prim (.str t)) (.cons f (.prim q) .nil)))
    (.cons (.map (.cons refKey (.prim (.str "#/0")) .nil)) .nil))

/-- C2: an acyclic graph in which one registered-instance identity is
reachable via two paths encodes with exactly one full substructure, at
the first-visited depth-first path, and exactly one reference marker at
the second path; decoding yields a single constructed object whose
address is shared, identically, at both positions (the constructed heap
holds one list and one instance only). -/
theorem c2_shared_identity (c t f : String) (q : PVal)
    (ht : isTypeName escChar t = true) (hf : isIdentifier f = true) :
    preserialize (regOf jsonRegistry (c2Rows c t)) (c2Heap c f q) (.obj 0) =
      .ok (c2Wire t f q) ∧
    depreserialize (regOf jsonRegistry (c2Rows c t)) [] (c2Wire t f q) =
      .ok (.addr 1, [(1, .list [.addr 0, .addr 0]), (0, .inst c [(f, .prim q)])]) := by
  have hreg : regOf jsonRegistry (c2Rows c t) =
      { deconstructors :=
          ((Ty.cls c, Option.none), Option.some ⟨.instanceD, .cls c, t, Option.none, []⟩) ::
          jsonRegistry.deconstructors,
        versions := jsonRegistry.versions,
        types := ((t, Option.none), Ty.cls c) :: jsonRegistry.types } := by
    simp [c2Rows, regOf, registerTypes, register, ht]
  rw [jsonRegistry_eq] at hreg
  have hfd : ¬ (f = "") := by simpa [dataKey] using ident_ne_empty hf
  have hfty : ¬ (f = "$type") := by simpa [typeKey] using ident_ne_typeKey hf
  have hfv : ¬ (f = "$version") := by simpa [versionKey] using ident_ne_versionKey hf
  have hft : ¬ ("$type" = f) := fun he => hfty he.symm
  have hfv2 : ¬ ("$version" = f) := fun he => hfv he.symm
  have hmr : makeRefW [PKey.num 0] =
      .map (.cons refKey (.prim (.str "#/0")) .nil) := by rfl
  have hdata : ("#/0" : String).data = ['#', '/', '0'] := by rfl
  have hpp : ptrParts (String.mk ['/', '0']) = Option.some ["0"] := by rfl
  have hci : castInt "0" = PKey.num 0 := by rfl
  constructor
  · cases q <;>
      simp [jsonRegistry_eq, hreg, c2Heap, c2Wire, preserialize, encFuel, encAux,
        heapGet, alook, getDecFromType, objTy, primTy, deconstructObj, encListItems,
        encKwItems, encodeKey_ident hf, winsert, linksAdd, hmr, labelData, wgetPath,
        wsetPath, wlGet, wlSet, hft, hfv2, typeKey, versionKey, dataKey]
  · cases q <;>
      simp [jsonRegistry_eq, hreg, c2Wire, depreserialize, decFuel, wireWeight,
        wlWeight, wmWeight, decAux, refResolve, isRefW, wmLen, wlookup, getDecFromData,
        getDecFromType, alook, decEntries, decListItems, constructD, allocD,
        setSources, setSourcesGo, freshBase, objTy, primTy, decodeKey_ident hf,
        ainsert, hdata, hpp, hci, hfd, hfty, hfv, hft, hfv2, typeKey, versionKey,
        dataKey, refKey]



theorem c2_shared_identity_witness :
    preserialize (regOf jsonRegistry (c2Rows "Node" "node")) (c2Heap "Node" "tag" (.int 7))
        (.obj 0) = .ok (c2Wire "node" "tag" (.int 7)) ∧
    depreserialize (regOf jsonRegistry (c2Rows "Node" "node")) [] (c2Wire "node" "tag" (.int 7)) =
      .ok (.addr 1, [(1, .list [.addr 0, .addr 0]), (0, .inst "Node" [("tag", .prim (.int 7))])]) :=
  c2_shared_identity "Node" "node" "tag" (.int 7) (by decide) (by decide)


theorem wireWeight_verWire (v : Ver) : wireWeight (verWire v) = 1 := by
  cases v <;> rfl

/-- Registration table for the cycle scenario: class A under a tag with
a version, class B under a tag without one. -/
def c1Rows (cA tA : String) (vA : Ver) (cB tB : String) : List RegRow :=
  [⟨.cls cA, Option.some .instanceD, Option.some tA, Option.some vA, []⟩,
   ⟨.cls cB, Option.some .instanceD, Option.some tB, Option.none, []⟩]

/-- A cyclic object graph: the instance of A holds a primitive
attribute and an attribute pointing to the instance of B, whose
attribute points back to the instance of A. -/
def c1Heap (cA cB g f1 f2 : String) (q : PVal) : Heap :=
  [(0, .inst cA [(g, .prim q), (f1, .obj 1)]),
   (1, .inst cB [(f2, .obj 0)])]

/-- Expected encoding of the cycle: a finite tree whose only reference
marker points at the root. -/
def c1Wire (tA : String) (vA : Ver) (tB g f1 f2 : String) (q : PVal) : Wire :=
  .map (.cons typeKey (.prim (.str tA))
    (.cons versionKey (verWire vA)
      (.cons g (.prim q)
        (.cons f1 (.map (.cons typeKey (.prim (.str tB))
          (.cons f2 (.map (.cons refKey (.prim (.str "#")) .nil)) .nil)))
          .nil))))

/-- C1: the cyclic graph in which A points to B and B points back to A
encodes without infinite recursion, terminating with the finite wire
tree above (the traversal succeeds at the fuel bound tied to the heap
size, so the identity cache cut the cycle), and decoding that tree
rebuilds the cycle intact by identity: the back-reference field of the
decoded descendant holds the address of the decoded ancestor itself,
patched in by the allocate-then-patch pass. -/
theorem c1_cycle_roundtrip (cA tA : String) (vA : Ver) (cB tB g f1 f2 : String) (q : PVal)
    (htA : isTypeName escChar tA = true) (htB : isTypeName escChar tB = true)
    (hg : isIdentifier g = true) (hf1 : isIdentifier f1 = true)
    (hf2 : isIdentifier f2 = true)
    (hcc : ¬ (cA = cB)) (hgf : ¬ (g = f1)) :
    preserialize (regOf jsonRegistry (c1Rows cA tA vA cB tB))
        (c1Heap cA cB g f1 f2 q) (.obj 0) =
      .ok (c1Wire tA vA tB g f1 f2 q) ∧
    depreserialize (regOf jsonRegistry (c1Rows cA tA vA cB tB)) []
        (c1Wire tA vA tB g f1 f2 q) =
      .ok (.addr 1, [(1, .inst cA [(g, .prim q), (f1, .addr 0)]),
                     (0, .inst cB [(f2, .addr 1)])]) := by
  have hreg : regOf jsonRegistry (c1Rows cA tA vA cB tB) =
      { deconstructors :=
          ((Ty.cls cB, Option.none), Option.some ⟨.instanceD, .cls cB, tB, Option.none, []⟩) ::
          ((Ty.cls cA, Option.some vA),
            Option.some ⟨.instanceD, .cls cA, tA, Option.some vA, []⟩) ::
          jsonRegistry.deconstructors,
        versions := (Ty.cls cA, vA) :: jsonRegistry.versions,
        types := ((tB, Option.none), Ty.cls cB) :: ((tA, Option.some vA), Ty.cls cA) ::
          jsonRegistry.types } := by
    simp [c1Rows, regOf, registerTypes, register, htA, htB]
  rw [jsonRegistry_eq] at hreg
  have hcc2 : ¬ (cB = cA) := fun he => hcc he.symm
  have hgf2 : ¬ (f1 = g) := fun he => hgf he.symm
  have hgd : ¬ (g = "") := by simpa [dataKey] using ident_ne_empty hg
  have hgty : ¬ (g = "$type") := by simpa [typeKey] using ident_ne_typeKey hg
  have hgv : ¬ (g = "$version") := by simpa [versionKey] using ident_ne_versionKey hg
  have hgt2 : ¬ ("$type" = g) := fun he => hgty he.symm
  have hgv2 : ¬ ("$version" = g) := fun he => hgv he.symm
  have hf1d : ¬ (f1 = "") := by simpa [dataKey] using ident_ne_empty hf1
  have hf1ty : ¬ (f1 = "$type") := by simpa [typeKey] using ident_ne_typeKey hf1
  have hf1v : ¬ (f1 = "$version") := by simpa [versionKey] using ident_ne_versionKey hf1
  have hf1t2 : ¬ ("$type" = f1) := fun he => hf1ty he.symm
  have hf1v2 : ¬ ("$version" = f1) := fun he => hf1v he.symm
  have hf2d : ¬ (f2 = "") := by simpa [dataKey] using ident_ne_empty hf2
  have hf2ty : ¬ (f2 = "$type") := by simpa [typeKey] using ident_ne_typeKey hf2
  have hf2v : ¬ (f2 = "$version") := by simpa [versionKey] using ident_ne_versionKey hf2
  have hf2t2 : ¬ ("$type" = f2) := fun he => hf2ty he.symm
  have hf2v2 : ¬ ("$version" = f2) := fun he => hf2v he.symm
  have hmr : makeRefW [] = .map (.cons refKey (.prim (.str "#")) .nil) := by rfl
  have hdata : ("#" : String).data = ['#'] := by rfl
  have hpp : ptrParts (String.mk []) = Option.some [] := by rfl
  constructor
  · cases q <;>
      simp [jsonRegistry_eq, hreg, c1Heap, c1Wire, preserialize, encFuel, encAux,
        heapGet, alook, getDecFromType, objTy, primTy, deconstructObj, encKwItems,
        encodeKey_ident hg, encodeKey_ident hf1, encodeKey_ident hf2, winsert,
        linksAdd, hmr, labelData, hcc, hcc2, hgf, hgf2, hgt2, hgv2, hf1t2, hf1v2,
        hf2t2, hf2v2, typeKey, versionKey, dataKey]
  · cases q <;>
      simp [jsonRegistry_eq, hreg, c1Wire, depreserialize, decFuel, wireWeight,
        wlWeight, wmWeight, wireWeight_verWire, decAux, refResolve, isRefW, wmLen, wlookup,
        getDecFromData, getDecFromType, wireVer_verWire, alook, decEntries,
        decListItems, constructD, allocD, setSources, setSourcesGo, applySources,
        applyOneSource, setattrD, splitLast, freshBase, objTy, primTy,
        decodeKey_ident hg, decodeKey_ident hf1, decodeKey_ident hf2, ainsert,
        linksAdd, hdata, hpp, hcc, hcc2, hgf, hgf2, hgd, hgty, hgv, hgt2, hgv2,
        hf1d, hf1ty, hf1v, hf1t2, hf1v2, hf2d, hf2ty, hf2v, hf2t2, hf2v2,
        typeKey, versionKey, dataKey, refKey]


theorem c1_cycle_roundtrip_witness :
    preserialize (regOf jsonRegistry (c1Rows "Parrot" "parrot" (.int 2) "Egg" "egg"))
        (c1Heap "Parrot" "Egg" "is_dead" "from_egg" "from_parrot" (.bool true)) (.obj 0) =
      .ok (c1Wire "parrot" (.int 2) "egg" "is_dead" "from_egg" "from_parrot" (.bool true)) ∧
    depreserialize (regOf jsonRegistry (c1Rows "Parrot" "parrot" (.int 2) "Egg" "egg")) []
        (c1Wire "parrot" (.int 2) "egg" "is_dead" "from_egg" "from_parrot" (.bool true)) =
      .ok (.addr 1, [(1, .inst "Parrot" [("is_dead", .prim (.bool true)), ("from_egg", .addr 0)]),
                     (0, .inst "Egg" [("from_parrot", .addr 1)])]) :=
  c1_cycle_roundtrip "Parrot" "parrot" (.int 2) "Egg" "egg" "is_dead" "from_egg" "from_parrot"
    (.bool true) (by decide) (by decide) (by decide) (by decide) (by decide) (by decide)
    (by decide)

/- ---------------------------------------------------------------------
   The stack-safe traversal engine.  Modelled from the spec: the
   stackless trampoline the source imports (fn.recur) is not part of
   the repository; following the specification, each recursive step
   into a child is represented as a suspended unit of work pushed onto
   an explicit work structure, and control returns only after the
   child unit yields its result.  A generator body never invokes
   itself: a child visit appears only as a call node carrying the
   continuation, and a single non-recursive step function drives the
   whole walk over an explicit stack of suspended continuations.
   --------------------------------------------------------------------- -/

/-- A resumable unit of work of the pre-serializer: a finished yield, a
raised error, or a suspended call of the traversal on a child together
with the continuation to resume with the child result. -/
inductive EProg where
  | ret (w : Wire) (st : EncSt)
  | fail (e : PErr)
  | call (v : V) (path : Path) (st : EncSt) (k : Wire → EncSt → EProg)

/-- Sequence-children loop of the generator body, in continuation
style: every child visit is a suspended call node. -/
def listLoopE (ppath : Path) : List V → Int → (WList → EncSt → EProg) → EncSt → EProg
  | [], _, k, st => k .nil st
  | v :: rest, i, k, st =>
    .call v (ppath ++ [.num i]) st (fun w st1 =>
      listLoopE ppath rest (i + 1) (fun ws st2 => k (.cons w ws) st2) st1)

/-- Positional-arguments loop of the generator body. -/
def argsLoopE (ppath : Path) : List ArgV → Int → (WList → EncSt → EProg) → EncSt → EProg
  | [], _, k, st => k .nil st
  | .v x :: rest, i, k, st =>
    .call x (ppath ++ [.str dataKey, .num i]) st (fun w st1 =>
      argsLoopE ppath rest (i + 1) (fun ws st2 => k (.cons w ws) st2) st1)
  | .kv kx x :: rest, i, k, st =>
    .call kx (ppath ++ [.str dataKey, .num i, .num 0]) st (fun wk st1 =>
      .call x (ppath ++ [.str dataKey, .num i, .num 1]) st1 (fun wx st2 =>
        argsLoopE ppath rest (i + 1)
          (fun ws st3 => k (.cons (.list (.cons wk (.cons wx .nil))) ws) st3) st2))

/-- Keyword-arguments loop of the generator body. -/
def kwLoopE (ppath : Path) : List (String × V) → WMap → (WMap → EncSt → EProg) → EncSt → EProg
  | [], acc, k, st => k acc st
  | (key, x) :: rest, acc, k, st =>
    match encodeKey escChar key with
    | .error e => .fail e
    | .ok ekey =>
      .call x (ppath ++ [.str ekey]) st (fun w st1 =>
        kwLoopE ppath rest (winsert acc ekey w) k st1)

/-- The generator body of one pre-serialization activation.  It mirrors
the recursive traversal but never calls itself: children appear only
under suspended call nodes. -/
def encBody (reg : Registry) (h : Heap) (v : V) (path : Path) (st : EncSt) : EProg :=
  match v with
  | .prim p =>
    match getDecFromType reg (primTy p) with
    | .error e => .fail e
    | .ok Option.none => .ret (.prim p) st
    | .ok (Option.some _) => .fail .internal
  | .obj a =>
    match heapGet h a with
    | Option.none => .fail .internal
    | Option.some (Obj.list items) =>
      match alook a st.pathCache with
      | Option.some dest => .ret (makeRefW dest) { st with links := linksAdd st.links path dest }
      | Option.none =>
        listLoopE path items 0 (fun ws st2 => .ret (.list ws) st2)
          { st with pathCache := (a, path) :: st.pathCache }
    | Option.some o =>
      match getDecFromType reg (objTy o) with
      | .error e => .fail e
      | .ok Option.none => .ret (.obj a) st
      | .ok (Option.some d) =>
        match alook a st.pathCache with
        | Option.some dest =>
          .ret (makeRefW dest) { st with links := linksAdd st.links path dest }
        | Option.none =>
          match deconstructObj d o with
          | .error e => .fail e
          | .ok (args, kwargs) =>
            let m1 : WMap :=
              match d.version with
              | Option.some ver =>
                .cons typeKey (.prim (.str d.name)) (.cons versionKey (verWire ver) .nil)
              | Option.none => .cons typeKey (.prim (.str d.name)) .nil
            let finish : WMap → EncSt → EProg := fun m2 st3 =>
              match kwargs with
              | Option.some (k0 :: rest) =>
                kwLoopE path (k0 :: rest) m2 (fun m3 st4 => .ret (.map m3) st4) st3
              | _ => .ret (.map m2) st3
            match args with
            | Option.some (a0 :: rest) =>
              argsLoopE path (a0 :: rest) 0
                (fun ws st2 => finish (winsert m1 dataKey (.list ws)) st2)
                { st with pathCache := (a, path) :: st.pathCache }
            | _ => finish m1 { st with pathCache := (a, path) :: st.pathCache }

/-- A machine configuration: the unit being run and the explicit stack
of suspended continuations below it. -/
abbrev EConf := EProg × List (Wire → EncSt → EProg)

/-- The single, non-recursive transition of the trampoline: a call
pushes the suspended continuation and enters the child body; a yield
resumes the continuation on top of the stack; a terminal configuration
has no successor. -/
def stepE (reg : Registry) (h : Heap) : EConf → Option EConf
  | (.fail _, _) => Option.none
  | (.ret _ _, []) => Option.none
  | (.ret w st, k :: stack) => Option.some (k w st, stack)
  | (.call v path st k, stack) => Option.some (encBody reg h v path st, k :: stack)

/-- Reachability by iterating the step function. -/
def StepsE (reg : Registry) (h : Heap) : EConf → EConf → Prop :=
  Relation.ReflTransGen (fun s t => stepE reg h s = Option.some t)


theorem listLoopE_sim (reg : Registry) (h : Heap) (rec : EncRec)
    (hrec : ∀ (v : V) (path : Path) (st : EncSt) (w : Wire) (st' : EncSt),
      rec v path st = .ok (w, st') →
      ∀ K, StepsE reg h (encBody reg h v path st, K) (.ret w st', K))
    (ppath : Path) (items : List V) :
    ∀ (i : Int) (st : EncSt) (ws : WList) (st2 : EncSt) (k : WList → EncSt → EProg)
      (K : List (Wire → EncSt → EProg)),
      encListItems rec ppath items i st = .ok (ws, st2) →
      StepsE reg h (listLoopE ppath items i k st, K) (k ws st2, K) := by
  induction items with
  | nil =>
    intro i st ws st2 k K hok
    simp [encListItems] at hok
    obtain ⟨rfl, rfl⟩ := hok
    exact Relation.ReflTransGen.refl
  | cons v rest ih =>
    intro i st ws st2 k K hok
    rw [encListItems] at hok
    split at hok
    · exact absurd hok (by simp)
    · next w st1 hv =>
        split at hok
        · exact absurd hok (by simp)
        · next ws2 st3 hrest =>
            simp at hok
            obtain ⟨rfl, rfl⟩ := hok
            refine Relation.ReflTransGen.head (by rfl) ?_
            refine Relation.ReflTransGen.trans (hrec v _ _ _ _ hv _) ?_
            refine Relation.ReflTransGen.head (by rfl) ?_
            exact ih _ _ _ _ _ _ hrest


theorem argsLoopE_sim (reg : Registry) (h : Heap) (rec : EncRec)
    (hrec : ∀ (v : V) (path : Path) (st : EncSt) (w : Wire) (st' : EncSt),
      rec v path st = .ok (w, st') →
      ∀ K, StepsE reg h (encBody reg h v path st, K) (.ret w st', K))
    (ppath : Path) (items : List ArgV) :
    ∀ (i : Int) (st : EncSt) (ws : WList) (st2 : EncSt) (k : WList → EncSt → EProg)
      (K : List (Wire → EncSt → EProg)),
      encArgItems rec ppath items i st = .ok (ws, st2) →
      StepsE reg h (argsLoopE ppath items i k st, K) (k ws st2, K) := by
  induction items with
  | nil =>
    intro i st ws st2 k K hok
    simp [encArgItems] at hok
    obtain ⟨rfl, rfl⟩ := hok
    exact Relation.ReflTransGen.refl
  | cons a rest ih =>
    intro i st ws st2 k K hok
    cases a with
    | v x =>
      rw [encArgItems] at hok
      split at hok
      · exact absurd hok (by simp)
      · next w st1 hv =>
          split at hok
          · exact absurd hok (by simp)
          · next ws2 st3 hrest =>
              simp at hok
              obtain ⟨rfl, rfl⟩ := hok
              refine Relation.ReflTransGen.head (by rfl) ?_
              refine Relation.ReflTransGen.trans (hrec x _ _ _ _ hv _) ?_
              refine Relation.ReflTransGen.head (by rfl) ?_
              exact ih _ _ _ _ _ _ hrest
    | kv kx x =>
      rw [encArgItems] at hok
      split at hok
      · exact absurd hok (by simp)
      · next wk st1 hk =>
          split at hok
          · exact absurd hok (by simp)
          · next wx st2x hx =>
              split at hok
              · exact absurd hok (by simp)
              · next ws2 st3 hrest =>
                  simp at hok
                  obtain ⟨rfl, rfl⟩ := hok
                  refine Relation.ReflTransGen.head (by rfl) ?_
                  refine Relation.ReflTransGen.trans (hrec kx _ _ _ _ hk _) ?_
                  refine Relation.ReflTransGen.head (by rfl) ?_
                  refine Relation.ReflTransGen.head (by rfl) ?_
                  refine Relation.ReflTransGen.trans (hrec x _ _ _ _ hx _) ?_
                  refine Relation.ReflTransGen.head (by rfl) ?_
                  exact ih _ _ _ _ _ _ hrest

theorem kwLoopE_sim (reg : Registry) (h : Heap) (rec : EncRec)
    (hrec : ∀ (v : V) (path : Path) (st : EncSt) (w : Wire) (st' : EncSt),
      rec v path st = .ok (w, st') →
      ∀ K, StepsE reg h (encBody reg h v path st, K) (.ret w st', K))
    (ppath : Path) (items : List (String × V)) :
    ∀ (acc : WMap) (st : EncSt) (m : WMap) (st2 : EncSt) (k : WMap → EncSt → EProg)
      (K : List (Wire → EncSt → EProg)),
      encKwItems rec ppath items acc st = .ok (m, st2) →
      StepsE reg h (kwLoopE ppath items acc k st, K) (k m st2, K) := by
  induction items with
  | nil =>
    intro acc st m st2 k K hok
    simp [encKwItems] at hok
    obtain ⟨rfl, rfl⟩ := hok
    exact Relation.ReflTransGen.refl
  | cons kv rest ih =>
    obtain ⟨key, x⟩ := kv
    intro acc st m st2 k K hok
    rw [encKwItems] at hok
    rw [kwLoopE]
    split at hok
    · exact absurd hok (by simp)
    · next ekey he =>
        split at hok
        · exact absurd hok (by simp)
        · next w st1 hv =>
            refine Relation.ReflTransGen.head (by rfl) ?_
            refine Relation.ReflTransGen.trans (hrec x _ _ _ _ hv _) ?_
            refine Relation.ReflTransGen.head (by rfl) ?_
            exact ih _ _ _ _ _ _ hok


theorem encMachineSim (reg : Registry) (h : Heap) :
    ∀ (fuel : Nat) (v : V) (path : Path) (st : EncSt) (w : Wire) (st2 : EncSt),
      encAux reg h fuel v path st = .ok (w, st2) →
      ∀ K, StepsE reg h (encBody reg h v path st, K) (.ret w st2, K) := by
  intro fuel
  induction fuel with
  | zero => intro v path st w st2 hok; exact absurd hok (by simp [encAux])
  | succ fuel ih =>
    intro v path st w st2 hok K
    cases v with
    | prim p =>
      cases hd : getDecFromType reg (primTy p) with
      | error e => simp [encAux, hd] at hok
      | ok od =>
        cases od with
        | none =>
          simp [encAux, hd] at hok
          obtain ⟨rfl, rfl⟩ := hok
          simp only [encBody, hd]
          exact Relation.ReflTransGen.refl
        | some d => simp [encAux, hd] at hok
    | obj a =>
      cases ho : heapGet h a with
      | none => simp [encAux, ho] at hok
      | some o =>
        cases o with
        | list items =>
          cases hc : alook a st.pathCache with
          | some dest =>
            simp [encAux, ho, hc] at hok
            obtain ⟨rfl, rfl⟩ := hok
            simp only [encBody, ho, hc]
            exact Relation.ReflTransGen.refl
          | none =>
            simp only [encAux, ho, hc] at hok
            split at hok
            · exact absurd hok (by simp)
            · next ws st3 hl =>
                simp at hok
                obtain ⟨rfl, rfl⟩ := hok
                simp only [encBody, ho, hc]
                exact listLoopE_sim reg h _ ih _ _ _ _ _ _ _ _ hl
        | tuple items =>
          cases hd : getDecFromType reg (objTy (Obj.tuple items)) with
          | error e => simp [encAux, ho, hd] at hok
          | ok od =>
            cases od with
            | none =>
              simp [encAux, ho, hd] at hok
              obtain ⟨rfl, rfl⟩ := hok
              simp only [encBody, ho, hd]
              exact Relation.ReflTransGen.refl
            | some d =>
              cases hc : alook a st.pathCache with
              | some dest =>
                simp [encAux, ho, hd, hc] at hok
                obtain ⟨rfl, rfl⟩ := hok
                simp only [encBody, ho, hd, hc]
                exact Relation.ReflTransGen.refl
              | none =>
                cases hde : deconstructObj d (Obj.tuple items) with
                | error e => simp [encAux, ho, hd, hc, hde] at hok
                | ok pr =>
                  obtain ⟨args, kwargs⟩ := pr
                  simp only [encAux, ho, hd, hc, hde] at hok
                  simp only [encBody, ho, hd, hc, hde]
                  cases args with
                  | none =>
                    cases kwargs with
                    | none =>
                      simp at hok
                      obtain ⟨rfl, rfl⟩ := hok
                      exact Relation.ReflTransGen.refl
                    | some kl =>
                      cases kl with
                      | nil =>
                        simp at hok
                        obtain ⟨rfl, rfl⟩ := hok
                        exact Relation.ReflTransGen.refl
                      | cons k0 krest =>
                        simp only [] at hok
                        split at hok
                        · exact absurd hok (by simp)
                        · next m3 st4 hkw =>
                            simp at hok
                            obtain ⟨rfl, rfl⟩ := hok
                            exact kwLoopE_sim reg h _ ih _ _ _ _ _ _ _ _ hkw
                  | some al =>
                    cases al with
                    | nil =>
                      cases kwargs with
                      | none =>
                        simp at hok
                        obtain ⟨rfl, rfl⟩ := hok
                        exact Relation.ReflTransGen.refl
                      | some kl =>
                        cases kl with
                        | nil =>
                          simp at hok
                          obtain ⟨rfl, rfl⟩ := hok
                          exact Relation.ReflTransGen.refl
                        | cons k0 krest =>
                          simp only [] at hok
                          split at hok
                          · exact absurd hok (by simp)
                          · next m3 st4 hkw =>
                              simp at hok
                              obtain ⟨rfl, rfl⟩ := hok
                              exact kwLoopE_sim reg h _ ih _ _ _ _ _ _ _ _ hkw
                    | cons a0 arest =>
                      simp only [] at hok
                      split at hok
                      · exact absurd hok (by simp)
                      · next m2 st3 hargs =>
                          split at hargs
                          · exact absurd hargs (by simp)
                          · next ws st4 henc =>
                              simp at hargs
                              obtain ⟨rfl, rfl⟩ := hargs
                              refine Relation.ReflTransGen.trans
                                (argsLoopE_sim reg h _ ih _ _ _ _ _ _ _ _ henc) ?_
                              cases kwargs with
                              | none =>
                                simp at hok
                                obtain ⟨rfl, rfl⟩ := hok
                                exact Relation.ReflTransGen.refl
                              | some kl =>
                                cases kl with
                                | nil =>
                                  simp at hok
                                  obtain ⟨rfl, rfl⟩ := hok
                                  exact Relation.ReflTransGen.refl
                                | cons k0 krest =>
                                  simp only [] at hok
                                  split at hok
                                  · exact absurd hok (by simp)
                                  · next m3 st4 hkw =>
                                      simp at hok
                                      obtain ⟨rfl, rfl⟩ := hok
                                      exact kwLoopE_sim reg h _ ih _ _ _ _ _ _ _ _ hkw
        | setO items =>
          cases hd : getDecFromType reg (objTy (Obj.setO items)) with
          | error e => simp [encAux, ho, hd] at hok
          | ok od =>
            cases od with
            | none =>
              simp [encAux, ho, hd] at hok
              obtain ⟨rfl, rfl⟩ := hok
              simp only [encBody, ho, hd]
              exact Relation.ReflTransGen.refl
            | some d =>
              cases hc : alook a st.pathCache with
              | some dest =>
                simp [encAux, ho, hd, hc] at hok
                obtain ⟨rfl, rfl⟩ := hok
                simp only [encBody, ho, hd, hc]
                exact Relation.ReflTransGen.refl
              | none =>
                cases hde : deconstructObj d (Obj.setO items) with
                | error e => simp [encAux, ho, hd, hc, hde] at hok
                | ok pr =>
                  obtain ⟨args, kwargs⟩ := pr
                  simp only [encAux, ho, hd, hc, hde] at hok
                  simp only [encBody, ho, hd, hc, hde]
                  cases args with
                  | none =>
                    cases kwargs with
                    | none =>
                      simp at hok
                      obtain ⟨rfl, rfl⟩ := hok
                      exact Relation.ReflTransGen.refl
                    | some kl =>
                      cases kl with
                      | nil =>
                        simp at hok
                        obtain ⟨rfl, rfl⟩ := hok
                        exact Relation.ReflTransGen.refl
                      | cons k0 krest =>
                        simp only [] at hok
                        split at hok
                        · exact absurd hok (by simp)
                        · next m3 st4 hkw =>
                            simp at hok
                            obtain ⟨rfl, rfl⟩ := hok
                            exact kwLoopE_sim reg h _ ih _ _ _ _ _ _ _ _ hkw
                  | some al =>
                    cases al with
                    | nil =>
                      cases kwargs with
                      | none =>
                        simp at hok
                        obtain ⟨rfl, rfl⟩ := hok
                        exact Relation.ReflTransGen.refl
                      | some kl =>
                        cases kl with
                        | nil =>
                          simp at hok
                          obtain ⟨rfl, rfl⟩ := hok
                          exact Relation.ReflTransGen.refl
                        | cons k0 krest =>
                          simp only [] at hok
                          split at hok
                          · exact absurd hok (by simp)
                          · next m3 st4 hkw =>
                              simp at hok
                              obtain ⟨rfl, rfl⟩ := hok
                              exact kwLoopE_sim reg h _ ih _ _ _ _ _ _ _ _ hkw
                    | cons a0 arest =>
                      simp only [] at hok
                      split at hok
                      · exact absurd hok (by simp)
                      · next m2 st3 hargs =>
                          split at hargs
                          · exact absurd hargs (by simp)
                          · next ws st4 henc =>
                              simp at hargs
                              obtain ⟨rfl, rfl⟩ := hargs
                              refine Relation.ReflTransGen.trans
                                (argsLoopE_sim reg h _ ih _ _ _ _ _ _ _ _ henc) ?_
                              cases kwargs with
                              | none =>
                                simp at hok
                                obtain ⟨rfl, rfl⟩ := hok
                                exact Relation.ReflTransGen.refl
                              | some kl =>
                                cases kl with
                                | nil =>
                                  simp at hok
                                  obtain ⟨rfl, rfl⟩ := hok
                                  exact Relation.ReflTransGen.refl
                                | cons k0 krest =>
                                  simp only [] at hok
                                  split at hok
                                  · exact absurd hok (by simp)
                                  · next m3 st4 hkw =>
                                      simp at hok
                                      obtain ⟨rfl, rfl⟩ := hok
                                      exact kwLoopE_sim reg h _ ih _ _ _ _ _ _ _ _ hkw
        | dict items =>
          cases hd : getDecFromType reg (objTy (Obj.dict items)) with
          | error e => simp [encAux, ho, hd] at hok
          | ok od =>
            cases od with
            | none =>
              simp [encAux, ho, hd] at hok
              obtain ⟨rfl, rfl⟩ := hok
              simp only [encBody, ho, hd]
              exact Relation.ReflTransGen.refl
            | some d =>
              cases hc : alook a st.pathCache with
              | some dest =>
                simp [encAux, ho, hd, hc] at hok
                obtain ⟨rfl, rfl⟩ := hok
                simp only [encBody, ho, hd, hc]
                exact Relation.ReflTransGen.refl
              | none =>
                cases hde : deconstructObj d (Obj.dict items) with
                | error e => simp [encAux, ho, hd, hc, hde] at hok
                | ok pr =>
                  obtain ⟨args, kwargs⟩ := pr
                  simp only [encAux, ho, hd, hc, hde] at hok
                  simp only [encBody, ho, hd, hc, hde]
                  cases args with
                  | none =>
                    cases kwargs with
                    | none =>
                      simp at hok
                      obtain ⟨rfl, rfl⟩ := hok
                      exact Relation.ReflTransGen.refl
                    | some kl =>
                      cases kl with
                      | nil =>
                        simp at hok
                        obtain ⟨rfl, rfl⟩ := hok
                        exact Relation.ReflTransGen.refl
                      | cons k0 krest =>
                        simp only [] at hok
                        split at hok
                        · exact absurd hok (by simp)
                        · next m3 st4 hkw =>
                            simp at hok
                            obtain ⟨rfl, rfl⟩ := hok
                            exact kwLoopE_sim reg h _ ih _ _ _ _ _ _ _ _ hkw
                  | some al =>
                    cases al with
                    | nil =>
                      cases kwargs with
                      | none =>
                        simp at hok
                        obtain ⟨rfl, rfl⟩ := hok
                        exact Relation.ReflTransGen.refl
                      | some kl =>
                        cases kl with
                        | nil =>
                          simp at hok
                          obtain ⟨rfl, rfl⟩ := hok
                          exact Relation.ReflTransGen.refl
                        | cons k0 krest =>
                          simp only [] at hok
                          split at hok
                          · exact absurd hok (by simp)
                          · next m3 st4 hkw =>
                              simp at hok
                              obtain ⟨rfl, rfl⟩ := hok
                              exact kwLoopE_sim reg h _ ih _ _ _ _ _ _ _ _ hkw
                    | cons a0 arest =>
                      simp only [] at hok
                      split at hok
                      · exact absurd hok (by simp)
                      · next m2 st3 hargs =>
                          split at hargs
                          · exact absurd hargs (by simp)
                          · next ws st4 henc =>
                              simp at hargs
                              obtain ⟨rfl, rfl⟩ := hargs
                              refine Relation.ReflTransGen.trans
                                (argsLoopE_sim reg h _ ih _ _ _ _ _ _ _ _ henc) ?_
                              cases kwargs with
                              | none =>
                                simp at hok
                                obtain ⟨rfl, rfl⟩ := hok
                                exact Relation.ReflTransGen.refl
                              | some kl =>
                                cases kl with
                                | nil =>
                                  simp at hok
                                  obtain ⟨rfl, rfl⟩ := hok
                                  exact Relation.ReflTransGen.refl
                                | cons k0 krest =>
                                  simp only [] at hok
                                  split at hok
                                  · exact absurd hok (by simp)
                                  · next m3 st4 hkw =>
                                      simp at hok
                                      obtain ⟨rfl, rfl⟩ := hok
                                      exact kwLoopE_sim reg h _ ih _ _ _ _ _ _ _ _ hkw
        | inst cn fields =>
          cases hd : getDecFromType reg (objTy (Obj.inst cn fields)) with
          | error e => simp [encAux, ho, hd] at hok
          | ok od =>
            cases od with
            | none =>
              simp [encAux, ho, hd] at hok
              obtain ⟨rfl, rfl⟩ := hok
              simp only [encBody, ho, hd]
              exact Relation.ReflTransGen.refl
            | some d =>
              cases hc : alook a st.pathCache with
              | some dest =>
                simp [encAux, ho, hd, hc] at hok
                obtain ⟨rfl, rfl⟩ := hok
                simp only [encBody, ho, hd, hc]
                exact Relation.ReflTransGen.refl
              | none =>
                cases hde : deconstructObj d (Obj.inst cn fields) with
                | error e => simp [encAux, ho, hd, hc, hde] at hok
                | ok pr =>
                  obtain ⟨args, kwargs⟩ := pr
                  simp only [encAux, ho, hd, hc, hde] at hok
                  simp only [encBody, ho, hd, hc, hde]
                  cases args with
                  | none =>
                    cases kwargs with
                    | none =>
                      simp at hok
                      obtain ⟨rfl, rfl⟩ := hok
                      exact Relation.ReflTransGen.refl
                    | some kl =>
                      cases kl with
                      | nil =>
                        simp at hok
                        obtain ⟨rfl, rfl⟩ := hok
                        exact Relation.ReflTransGen.refl
                      | cons k0 krest =>
                        simp only [] at hok
                        split at hok
                        · exact absurd hok (by simp)
                        · next m3 st4 hkw =>
                            simp at hok
                            obtain ⟨rfl, rfl⟩ := hok
                            exact kwLoopE_sim reg h _ ih _ _ _ _ _ _ _ _ hkw
                  | some al =>
                    cases al with
                    | nil =>
                      cases kwargs with
                      | none =>
                        simp at hok
                        obtain ⟨rfl, rfl⟩ := hok
                        exact Relation.ReflTransGen.refl
                      | some kl =>
                        cases kl with
                        | nil =>
                          simp at hok
                          obtain ⟨rfl, rfl⟩ := hok
                          exact Relation.ReflTransGen.refl
                        | cons k0 krest =>
                          simp only [] at hok
                          split at hok
                          · exact absurd hok (by simp)
                          · next m3 st4 hkw =>
                              simp at hok
                              obtain ⟨rfl, rfl⟩ := hok
                              exact kwLoopE_sim reg h _ ih _ _ _ _ _ _ _ _ hkw
                    | cons a0 arest =>
                      simp only [] at hok
                      split at hok
                      · exact absurd hok (by simp)
                      · next m2 st3 hargs =>
                          split at hargs
                          · exact absurd hargs (by simp)
                          · next ws st4 henc =>
                              simp at hargs
                              obtain ⟨rfl, rfl⟩ := hargs
                              refine Relation.ReflTransGen.trans
                                (argsLoopE_sim reg h _ ih _ _ _ _ _ _ _ _ henc) ?_
                              cases kwargs with
                              | none =>
                                simp at hok
                                obtain ⟨rfl, rfl⟩ := hok
                                exact Relation.ReflTransGen.refl
                              | some kl =>
                                cases kl with
                                | nil =>
                                  simp at hok
                                  obtain ⟨rfl, rfl⟩ := hok
                                  exact Relation.ReflTransGen.refl
                                | cons k0 krest =>
                                  simp only [] at hok
                                  split at hok
                                  · exact absurd hok (by simp)
                                  · next m3 st4 hkw =>
                                      simp at hok
                                      obtain ⟨rfl, rfl⟩ := hok
                                      exact kwLoopE_sim reg h _ ih _ _ _ _ _ _ _ _ hkw


/-- A decoder unit of work: a finished yield, an error, or a suspended
call on a child wire node with its continuation. -/
inductive DProg where
  | ret (dv : DVal) (st : DecSt)
  | fail (e : PErr)
  | call (w : Wire) (path : Path) (pd : Option Dec) (st : DecSt) (k : DVal → DecSt → DProg)

/-- Sequence-children loop of the decoder generator body. -/
def dlistLoop (ppath : Path) (pd : Option Dec) :
    WList → Int → (List DVal → DecSt → DProg) → DecSt → DProg
  | .nil, _, k, st => k [] st
  | .cons w ws, i, k, st =>
    .call w (ppath ++ [.num i]) pd st (fun dv st1 =>
      dlistLoop ppath pd ws (i + 1) (fun dvs st2 => k (dv :: dvs) st2) st1)

/-- Entries loop of the decoder generator body. -/
def dentriesLoop (d : Dec) (ppath : Path) :
    WMap → List DVal → List (String × DVal) →
    (List DVal → List (String × DVal) → DecSt → DProg) → DecSt → DProg
  | .nil, args, kwargs, k, st => k args kwargs st
  | .cons key w es, args, kwargs, k, st =>
    if key = dataKey then
      match w with
      | .list ws =>
        dlistLoop ppath (Option.some d) ws 0
          (fun dvs st1 => dentriesLoop d ppath es (args ++ dvs) kwargs k st1) st
      | _ => .fail .internal
    else if key = typeKey ∨ key = versionKey then dentriesLoop d ppath es args kwargs k st
    else
      .call w (ppath ++ [.str (decodeKey escChar key)]) (Option.some d) st (fun dv st1 =>
        dentriesLoop d ppath es args (ainsert (decodeKey escChar key) dv kwargs) k st1)

/-- The generator body of one de-pre-serialization activation; children
appear only under suspended call nodes. -/
def decBody (reg : Registry) (inH : Heap) (data : Wire) (path : Path) (parentDec : Option Dec)
    (st : DecSt) : DProg :=
  match data with
  | .prim p =>
    match getDecFromType reg (primTy p) with
    | .error e => .fail e
    | .ok Option.none => .ret (.prim p) st
    | .ok (Option.some _) => .fail .internal
  | .obj a =>
    (match heapGet inH a with
     | Option.none => .fail .internal
     | Option.some o =>
       if objTy o = Ty.list ∨ objTy o = Ty.dict then .fail .internal
       else
         match getDecFromType reg (objTy o) with
         | .error e => .fail e
         | .ok Option.none => .ret (.addr a) st
         | .ok (Option.some _) => .fail .internal)
  | .list ws =>
    dlistLoop path Option.none ws 0
      (fun items st1 =>
        let r := allocD st1 (.list items)
        .ret r.1 { r.2 with objCache := (path, r.1) :: r.2.objCache }) st
  | .map es =>
    if isRefW (.map es) then
      match refResolve path parentDec st es with
      | .error e => .fail e
      | .ok (dv, st1) => .ret dv st1
    else
      match getDecFromData reg es with
      | .error e => .fail e
      | .ok d =>
        dentriesLoop d path es [] []
          (fun args kwargs st1 =>
            match constructD d args kwargs st1 with
            | .error e => .fail e
            | .ok (dv, st2) => .ret dv { st2 with objCache := (path, dv) :: st2.objCache }) st

/-- A decoder machine configuration. -/
abbrev DConf := DProg × List (DVal → DecSt → DProg)

/-- The single non-recursive transition of the decoder trampoline. -/
def stepD (reg : Registry) (inH : Heap) : DConf → Option DConf
  | (.fail _, _) => Option.none
  | (.ret _ _, []) => Option.none
  | (.ret dv st, k :: stack) => Option.some (k dv st, stack)
  | (.call w path pd st k, stack) => Option.some (decBody reg inH w path pd st, k :: stack)

/-- Reachability by iterating the decoder step function. -/
def StepsD (reg : Registry) (inH : Heap) : DConf → DConf → Prop :=
  Relation.ReflTransGen (fun s t => stepD reg inH s = Option.some t)

theorem dlistLoop_sim (reg : Registry) (inH : Heap) (rec : DecRec)
    (hrec : ∀ (w : Wire) (path : Path) (pd : Option Dec) (st : DecSt) (dv : DVal) (st2 : DecSt),
      rec w path pd st = .ok (dv, st2) →
      ∀ K, StepsD reg inH (decBody reg inH w path pd st, K) (.ret dv st2, K))
    (ppath : Path) (pd : Option Dec) :
    ∀ (ws : WList) (i : Int) (st : DecSt) (dvs : List DVal) (st2 : DecSt)
      (k : List DVal → DecSt → DProg) (K : List (DVal → DecSt → DProg)),
      decListItems rec ppath pd ws i st = .ok (dvs, st2) →
      StepsD reg inH (dlistLoop ppath pd ws i k st, K) (k dvs st2, K)
  | .nil, i, st, dvs, st2, k, K, hok => by
    simp [decListItems] at hok
    obtain ⟨rfl, rfl⟩ := hok
    exact Relation.ReflTransGen.refl
  | .cons w ws, i, st, dvs, st2, k, K, hok => by
    rw [decListItems] at hok
    split at hok
    · exact absurd hok (by simp)
    · next dv st1 hv =>
        split at hok
        · exact absurd hok (by simp)
        · next dvs2 st3 hrest =>
            simp at hok
            obtain ⟨rfl, rfl⟩ := hok
            refine Relation.ReflTransGen.head (by rfl) ?_
            refine Relation.ReflTransGen.trans (hrec w _ _ _ _ _ hv _) ?_
            refine Relation.ReflTransGen.head (by rfl) ?_
            exact dlistLoop_sim reg inH rec hrec ppath pd ws _ _ _ _ _ _ hrest


theorem dentriesLoop_sim (reg : Registry) (inH : Heap) (rec : DecRec)
    (hrec : ∀ (w : Wire) (path : Path) (pd : Option Dec) (st : DecSt) (dv : DVal) (st2 : DecSt),
      rec w path pd st = .ok (dv, st2) →
      ∀ K, StepsD reg inH (decBody reg inH w path pd st, K) (.ret dv st2, K))
    (d : Dec) (ppath : Path) :
    ∀ (es : WMap) (args : List DVal) (kwargs : List (String × DVal)) (st : DecSt)
      (args2 : List DVal) (kwargs2 : List (String × DVal)) (st2 : DecSt)
      (k : List DVal → List (String × DVal) → DecSt → DProg)
      (K : List (DVal → DecSt → DProg)),
      decEntries rec d ppath es args kwargs st = .ok (args2, kwargs2, st2) →
      StepsD reg inH (dentriesLoop d ppath es args kwargs k st, K) (k args2 kwargs2 st2, K)
  | .nil, args, kwargs, st, args2, kwargs2, st2, k, K, hok => by
    simp [decEntries] at hok
    obtain ⟨rfl, rfl, rfl⟩ := hok
    exact Relation.ReflTransGen.refl
  | .cons key w es, args, kwargs, st, args2, kwargs2, st2, k, K, hok => by
    cases w with
    | list ws =>
      simp only [decEntries] at hok
      simp only [dentriesLoop]
      by_cases h1 : key = dataKey
      · simp only [if_pos h1] at hok ⊢
        split at hok
        · exact absurd hok (by simp)
        · next dvs st1 hdl =>
            refine Relation.ReflTransGen.trans
              (dlistLoop_sim reg inH rec hrec ppath (Option.some d) ws _ _ _ _ _ _ hdl) ?_
            exact dentriesLoop_sim reg inH rec hrec d ppath es _ _ _ _ _ _ _ _ hok
      · simp only [if_neg h1] at hok ⊢
        by_cases h2 : key = typeKey ∨ key = versionKey
        · simp only [if_pos h2] at hok ⊢
          exact dentriesLoop_sim reg inH rec hrec d ppath es _ _ _ _ _ _ _ _ hok
        · simp only [if_neg h2] at hok ⊢
          split at hok
          · exact absurd hok (by simp)
          · next dv st1 hv =>
              refine Relation.ReflTransGen.head (by rfl) ?_
              refine Relation.ReflTransGen.trans (hrec _ _ _ _ _ _ hv _) ?_
              refine Relation.ReflTransGen.head (by rfl) ?_
              exact dentriesLoop_sim reg inH rec hrec d ppath es _ _ _ _ _ _ _ _ hok
    | prim p =>
      simp only [decEntries] at hok
      simp only [dentriesLoop]
      by_cases h1 : key = dataKey
      · simp only [if_pos h1] at hok ⊢
        exact absurd hok (by simp)
      · simp only [if_neg h1] at hok ⊢
        by_cases h2 : key = typeKey ∨ key = versionKey
        · simp only [if_pos h2] at hok ⊢
          exact dentriesLoop_sim reg inH rec hrec d ppath es _ _ _ _ _ _ _ _ hok
        · simp only [if_neg h2] at hok ⊢
          split at hok
          · exact absurd hok (by simp)
          · next dv st1 hv =>
              refine Relation.ReflTransGen.head (by rfl) ?_
              refine Relation.ReflTransGen.trans (hrec _ _ _ _ _ _ hv _) ?_
              refine Relation.ReflTransGen.head (by rfl) ?_
              exact dentriesLoop_sim reg inH rec hrec d ppath es _ _ _ _ _ _ _ _ hok
    | obj a =>
      simp only [decEntries] at hok
      simp only [dentriesLoop]
      by_cases h1 : key = dataKey
      · simp only [if_pos h1] at hok ⊢
        exact absurd hok (by simp)
      · simp only [if_neg h1] at hok ⊢
        by_cases h2 : key = typeKey ∨ key = versionKey
        · simp only [if_pos h2] at hok ⊢
          exact dentriesLoop_sim reg inH rec hrec d ppath es _ _ _ _ _ _ _ _ hok
        · simp only [if_neg h2] at hok ⊢
          split at hok
          · exact absurd hok (by simp)
          · next dv st1 hv =>
              refine Relation.ReflTransGen.head (by rfl) ?_
              refine Relation.ReflTransGen.trans (hrec _ _ _ _ _ _ hv _) ?_
              refine Relation.ReflTransGen.head (by rfl) ?_
              exact dentriesLoop_sim reg inH rec hrec d ppath es _ _ _ _ _ _ _ _ hok
    | map es2 =>
      simp only [decEntries] at hok
      simp only [dentriesLoop]
      by_cases h1 : key = dataKey
      · simp only [if_pos h1] at hok ⊢
        exact absurd hok (by simp)
      · simp only [if_neg h1] at hok ⊢
        by_cases h2 : key = typeKey ∨ key = versionKey
        · simp only [if_pos h2] at hok ⊢
          exact dentriesLoop_sim reg inH rec hrec d ppath es _ _ _ _ _ _ _ _ hok
        · simp only [if_neg h2] at hok ⊢
          split at hok
          · exact absurd hok (by simp)
          · next dv st1 hv =>
              refine Relation.ReflTransGen.head (by rfl) ?_
              refine Relation.ReflTransGen.trans (hrec _ _ _ _ _ _ hv _) ?_
              refine Relation.ReflTransGen.head (by rfl) ?_
              exact dentriesLoop_sim reg inH rec hrec d ppath es _ _ _ _ _ _ _ _ hok


theorem decMachineSim (reg : Registry) (inH : Heap) :
    ∀ (fuel : Nat) (data : Wire) (path : Path) (pd : Option Dec) (st : DecSt)
      (dv : DVal) (st2 : DecSt),
      decAux reg inH fuel data path pd st = .ok (dv, st2) →
      ∀ K, StepsD reg inH (decBody reg inH data path pd st, K) (.ret dv st2, K) := by
  intro fuel
  induction fuel with
  | zero => intro data path pd st dv st2 hok; exact absurd hok (by simp [decAux])
  | succ fuel ih =>
    intro data path pd st dv st2 hok K
    cases data with
    | prim p =>
      cases hd : getDecFromType reg (primTy p) with
      | error e => simp [decAux, hd] at hok
      | ok od =>
        cases od with
        | none =>
          simp [decAux, hd] at hok
          obtain ⟨rfl, rfl⟩ := hok
          simp only [decBody, hd]
          exact Relation.ReflTransGen.refl
        | some d => simp [decAux, hd] at hok
    | obj a =>
      cases ho : heapGet inH a with
      | none => simp [decAux, ho] at hok
      | some o =>
        by_cases hld : objTy o = Ty.list ∨ objTy o = Ty.dict
        · simp [decAux, ho, hld] at hok
        · cases hd : getDecFromType reg (objTy o) with
          | error e => simp [decAux, ho, hld, hd] at hok
          | ok od =>
            cases od with
            | none =>
              simp [decAux, ho, hld, hd] at hok
              obtain ⟨rfl, rfl⟩ := hok
              simp only [decBody, ho, hld, hd]
              simp [hld]
              exact Relation.ReflTransGen.refl
            | some d => simp [decAux, ho, hld, hd] at hok
    | list ws =>
      simp only [decAux] at hok
      split at hok
      · exact absurd hok (by simp)
      · next items st1 hdl =>
          simp at hok
          obtain ⟨rfl, rfl⟩ := hok
          simp only [decBody]
          exact dlistLoop_sim reg inH _ ih _ _ _ _ _ _ _ _ _ hdl
    | map es =>
      by_cases href : isRefW (.map es) = true
      · simp only [decAux, href, if_true] at hok
        simp only [decBody, href, if_true]
        cases hr : refResolve path pd st es with
        | error e => rw [hr] at hok; exact absurd hok (by simp)
        | ok pr =>
          obtain ⟨dv0, st1⟩ := pr
          rw [hr] at hok
          simp at hok
          obtain ⟨rfl, rfl⟩ := hok
          exact Relation.ReflTransGen.refl
      · simp only [decAux, href] at hok
        simp only [decBody, href]
        simp only [Bool.false_eq_true, if_false] at hok ⊢
        cases hgd : getDecFromData reg es with
        | error e => rw [hgd] at hok; exact absurd hok (by simp)
        | ok d =>
          rw [hgd] at hok
          simp only [] at hok
          split at hok
          · exact absurd hok (by simp)
          · next args kwargs st1 hde =>
              split at hok
              · exact absurd hok (by simp)
              · next dv0 st3 hco =>
                  simp at hok
                  obtain ⟨rfl, rfl⟩ := hok
                  refine Relation.ReflTransGen.trans
                    (dentriesLoop_sim reg inH _ ih d path es _ _ _ _ _ _ _ _ hde) ?_
                  refine Relation.ReflTransGen.trans (Relation.ReflTransGen.refl) ?_
                  show StepsD reg inH
                    ((match constructD d args kwargs st1 with
                      | .error e => DProg.fail e
                      | .ok (dv, st2) =>
                        DProg.ret dv { st2 with objCache := (path, dv) :: st2.objCache }), K)
                    (.ret dv0 { st3 with objCache := (path, dv0) :: st3.objCache }, K)
                  rw [hco]
                  exact Relation.ReflTransGen.refl


/-- C8: both traversals are explicit, resumable computations on an
explicit work structure rather than native recursion: whenever the
recursive traversal yields a result, iterating the single
non-recursive step function from the root generator body over an
explicit stack of suspended continuation frames reaches the same
result; every step into a child is exactly one pushed suspended unit
(the call transition), and control returns to the suspended parent
only through the yield transition, so the walk is a flat iteration of
one step function whose own nesting never grows with the depth or
width of the input. -/
theorem c8_explicit_work_structure :
    (∀ (reg : Registry) (h : Heap) (fuel : Nat) (v : V) (path : Path) (st : EncSt)
       (w : Wire) (st2 : EncSt),
      encAux reg h fuel v path st = .ok (w, st2) →
      StepsE reg h (encBody reg h v path st, []) (.ret w st2, [])) ∧
    (∀ (reg : Registry) (inH : Heap) (fuel : Nat) (data : Wire) (path : Path)
       (pd : Option Dec) (st : DecSt) (dv : DVal) (st2 : DecSt),
      decAux reg inH fuel data path pd st = .ok (dv, st2) →
      StepsD reg inH (decBody reg inH data path pd st, []) (.ret dv st2, [])) :=
  ⟨fun reg h fuel v path st w st2 hok => encMachineSim reg h fuel v path st w st2 hok [],
   fun reg inH fuel data path pd st dv st2 hok =>
     decMachineSim reg inH fuel data path pd st dv st2 hok []⟩

theorem c8_explicit_work_structure_witness :
    (encAux jsonRegistry [(0, .list [.prim (.int 1)])] 3 (.obj 0) [] ⟨[], []⟩ =
      .ok (.list (.cons (.prim (.int 1)) .nil), ⟨[(0, [])], []⟩) ∧
      StepsE jsonRegistry [(0, .list [.prim (.int 1)])]
        (encBody jsonRegistry [(0, .list [.prim (.int 1)])] (.obj 0) [] ⟨[], []⟩, [])
        (.ret (.list (.cons (.prim (.int 1)) .nil)) ⟨[(0, [])], []⟩, [])) ∧
    (decAux jsonRegistry [] 1 (.prim (.int 5)) [] Option.none ⟨[], 0, [], [], []⟩ =
      .ok (.prim (.int 5), ⟨[], 0, [], [], []⟩) ∧
      StepsD jsonRegistry []
        (decBody jsonRegistry [] (.prim (.int 5)) [] Option.none ⟨[], 0, [], [], []⟩, [])
        (.ret (.prim (.int 5)) ⟨[], 0, [], [], []⟩, [])) :=
  ⟨⟨by rfl, c8_explicit_work_structure.1 jsonRegistry [(0, .list [.prim (.int 1)])] 3
      (.obj 0) [] ⟨[], []⟩ _ _ (by rfl)⟩,
   ⟨by rfl, c8_explicit_work_structure.2 jsonRegistry [] 1 (.prim (.int 5)) []
      Option.none ⟨[], 0, [], [], []⟩ _ _ (by rfl)⟩⟩

end Preserialize
